import Mathlib

/-!
Verification development for a streaming conversational-agent runtime.

The embedding mirrors, module by module, the Python sources:
* `client/response.py`  — stream event data types and tool-argument parsing;
* `client/llm_client.py` — the chunk decoder (`_stream_response`) and the
  retrying completion wrapper (`chat_completion`);
* `context/manager.py`  — the append-only conversation context;
* `tools/base.py`, `tools/registry.py` — tool results and tool invocation;
* `agent/agent.py`, `agent/events.py` — the orchestration loop and its
  lifecycle events.

Machine strings stay `String`; Python `dict[int, ...]` (insertion ordered)
becomes an association list with append-on-first-sight; optional values
become `Option`; a Python `if x:` truthiness test on an optional string
becomes an explicit non-empty test.  Exceptions raised by a tool's
`execute` are modelled with `Except`.
-/

/-- JSON values as produced by `json.loads`.  Numeric literals are kept as
their source lexeme (the numeric value itself is never inspected by the
program under verification). -/
inductive Json where
  | null
  | bool (b : Bool)
  | num (lexeme : String)
  | str (s : String)
  | arr (elems : List Json)
  | obj (fields : List (String × Json))

/-- JSON whitespace accepted between tokens (as in Python's `json`). -/
def isJsonWs (c : Char) : Bool :=
  c = ' ' || c = '\n' || c = '\r' || c = '\t'

def skipWs : List Char → List Char
  | c :: cs => if isJsonWs c then skipWs cs else c :: cs
  | [] => []

def hexVal (c : Char) : Option Nat :=
  if '0' ≤ c ∧ c ≤ '9' then some (c.toNat - '0'.toNat)
  else if 'a' ≤ c ∧ c ≤ 'f' then some (c.toNat - 'a'.toNat + 10)
  else if 'A' ≤ c ∧ c ≤ 'F' then some (c.toNat - 'A'.toNat + 10)
  else none

/-- Parse the body of a JSON string literal (the opening quote already
consumed), honouring the escape sequences of the `json` library and
rejecting raw control characters. -/
def parseStringBody : List Char → String → Option (String × List Char)
  | [], _ => none
  | c :: cs, acc =>
    if c = '"' then some (acc, cs)
    else if c = '\\' then
      match cs with
      | [] => none
      | e :: cs' =>
        if e = 'n' then parseStringBody cs' (acc.push '\n')
        else if e = 't' then parseStringBody cs' (acc.push '\t')
        else if e = 'r' then parseStringBody cs' (acc.push '\r')
        else if e = 'b' then parseStringBody cs' (acc.push (Char.ofNat 8))
        else if e = 'f' then parseStringBody cs' (acc.push (Char.ofNat 12))
        else if e = '"' then parseStringBody cs' (acc.push '"')
        else if e = '\\' then parseStringBody cs' (acc.push '\\')
        else if e = '/' then parseStringBody cs' (acc.push '/')
        else if e = 'u' then
          match cs' with
          | h1 :: h2 :: h3 :: h4 :: cs'' =>
            match hexVal h1, hexVal h2, hexVal h3, hexVal h4 with
            | some a, some b, some c', some d =>
              parseStringBody cs'' (acc.push (Char.ofNat (((a * 16 + b) * 16 + c') * 16 + d)))
            | _, _, _, _ => none
          | _ => none
        else none
    else if c.toNat < 32 then none
    else parseStringBody cs (acc.push c)

def isDigit (c : Char) : Bool := '0' ≤ c && c ≤ '9'

def takeDigits : List Char → String × List Char
  | [] => ("", [])
  | c :: cs =>
    if isDigit c then
      let (ds, rest) := takeDigits cs
      (String.singleton c ++ ds, rest)
    else ("", c :: cs)

/-- Parse a JSON number literal (strict grammar: `-? int frac? exp?`),
returning the consumed lexeme. -/
def parseNumber (cs : List Char) : Option (String × List Char) :=
  let (sign, cs1) :=
    match cs with
    | '-' :: rest => ("-", rest)
    | _ => ("", cs)
  match cs1 with
  | [] => none
  | c :: rest =>
    if ¬ isDigit c then none
    else
      let (intPart, cs2) :=
        if c = '0' then ("0", rest)
        else
          let (ds, r) := takeDigits rest
          (String.singleton c ++ ds, r)
      let fracRes : Option (String × List Char) :=
        match cs2 with
        | '.' :: r =>
          match r with
          | d :: r' =>
            if isDigit d then
              let (ds, r'') := takeDigits r'
              some ("." ++ String.singleton d ++ ds, r'')
            else none
          | [] => none
        | _ => some ("", cs2)
      match fracRes with
      | none => none
      | some (fracPart, cs3) =>
        match cs3 with
        | e :: r =>
          if e = 'e' ∨ e = 'E' then
            let (esign, r1) :=
              match r with
              | '+' :: r' => ("+", r')
              | '-' :: r' => ("-", r')
              | _ => ("", r)
            match r1 with
            | d :: r2 =>
              if isDigit d then
                let (ds, r3) := takeDigits r2
                some (sign ++ intPart ++ fracPart ++ String.singleton e ++ esign ++
                      String.singleton d ++ ds, r3)
              else none
            | [] => none
          else some (sign ++ intPart ++ fracPart, e :: r)
        | [] => some (sign ++ intPart ++ fracPart, [])

mutual

/-- Recursive-descent parser for one JSON value (strict grammar of the
`json` library; the `NaN`/`Infinity` extensions are not modelled).  `fuel`
bounds the recursion depth; every decrement consumes at least one input
character, so `length + 1` fuel always suffices. -/
def parseVal : Nat → List Char → Option (Json × List Char)
  | 0, _ => none
  | fuel + 1, cs =>
    match skipWs cs with
    | [] => none
    | c :: rest =>
      if c = 'n' then
        match rest with
        | 'u' :: 'l' :: 'l' :: r => some (Json.null, r)
        | _ => none
      else if c = 't' then
        match rest with
        | 'r' :: 'u' :: 'e' :: r => some (Json.bool true, r)
        | _ => none
      else if c = 'f' then
        match rest with
        | 'a' :: 'l' :: 's' :: 'e' :: r => some (Json.bool false, r)
        | _ => none
      else if c = '"' then
        match parseStringBody rest "" with
        | some (s, r) => some (Json.str s, r)
        | none => none
      else if c = '[' then
        match skipWs rest with
        | ']' :: r => some (Json.arr [], r)
        | _ =>
          match parseVal fuel rest with
          | some (v, r) =>
            match parseArrRest fuel r [v] with
            | some (vs, r') => some (Json.arr vs, r')
            | none => none
          | none => none
      else if c = '{' then
        match skipWs rest with
        | '}' :: r => some (Json.obj [], r)
        | _ =>
          match parseMember fuel rest [] with
          | some (kvs, r) => some (Json.obj kvs, r)
          | none => none
      else
        match parseNumber (c :: rest) with
        | some (lex, r) => some (Json.num lex, r)
        | none => none

/-- After one array element: expect `,` followed by an element, or `]`. -/
def parseArrRest : Nat → List Char → List Json → Option (List Json × List Char)
  | 0, _, _ => none
  | fuel + 1, cs, acc =>
    match skipWs cs with
    | ']' :: r => some (acc.reverse, r)
    | ',' :: r =>
      match parseVal fuel r with
      | some (v, r') => parseArrRest fuel r' (v :: acc)
      | none => none
    | _ => none

/-- One `"key": value` member followed by the rest of the object. -/
def parseMember : Nat → List Char → List (String × Json) →
    Option (List (String × Json) × List Char)
  | 0, _, _ => none
  | fuel + 1, cs, acc =>
    match skipWs cs with
    | '"' :: r =>
      match parseStringBody r "" with
      | some (k, r1) =>
        match skipWs r1 with
        | ':' :: r2 =>
          match parseVal fuel r2 with
          | some (v, r3) => parseObjRest fuel r3 ((k, v) :: acc)
          | none => none
        | _ => none
      | none => none
    | _ => none

/-- After one object member: expect `,` followed by a member, or `}`. -/
def parseObjRest : Nat → List Char → List (String × Json) →
    Option (List (String × Json) × List Char)
  | 0, _, _ => none
  | fuel + 1, cs, acc =>
    match skipWs cs with
    | '}' :: r => some (acc.reverse, r)
    | ',' :: r => parseMember fuel r acc
    | _ => none

end

/-- `json.loads`: parse a whole string as one JSON document (duplicate
object keys are kept in order here, where the Python `dict` would keep the
last one; no evaluated input relies on duplicate keys). -/
def jsonParse (s : String) : Option Json :=
  match parseVal (s.length + 1) s.toList with
  | some (v, rest) => if skipWs rest = [] then some v else none
  | none => none

/-- `client/response.py` — `parse_tool_call_arguments`: the empty text
means "no arguments"; a parse failure degrades to a `raw_arguments`
wrapper; a successful parse is returned as parsed. -/
def parse_tool_call_arguments (arguments_str : String) : Json :=
  if arguments_str = "" then Json.obj []
  else
    match jsonParse arguments_str with
    | some v => v
    | none => Json.obj [("raw_arguments", Json.str arguments_str)]

/-! ## `client/response.py` — stream event data types -/

/-- `TextDelta` dataclass. -/
structure TextDelta where
  content : String

/-- `StreamEventType` enum. -/
inductive StreamEventType where
  | TEXT_DELTA
  | MESSAGE_COMPLETE
  | ERROR
  | TOOL_CALL_START
  | TOOL_CALL_DELTA
  | TOOL_CALL_COMPLETE
deriving DecidableEq

/-- `TokenUsage` dataclass. -/
structure TokenUsage where
  prompt_tokens : Nat := 0
  completion_tokens : Nat := 0
  total_tokens : Nat := 0
  cached_tokens : Nat := 0
deriving DecidableEq

/-- `ToolCallDelta` dataclass.  `call_id` is typed `str` in the source but
can hold `None` at runtime (no id fragment seen yet), hence `Option`. -/
structure ToolCallDelta where
  call_id : Option String
  name : Option String := none
  arguments_delta : String := ""

/-- `ToolCall` dataclass, with `arguments` already parsed. -/
structure ToolCall where
  call_id : Option String
  arguments : Json
  name : String

/-- `StreamEvent` dataclass. -/
structure StreamEvent where
  type : StreamEventType
  text_delta : Option TextDelta := none
  error : Option String := none
  finish_reason : Option String := none
  usage : Option TokenUsage := none
  tool_call_delta : Option ToolCallDelta := none
  tool_call : Option ToolCall := none

/-! ## Raw response chunks (the provider shapes read by `_stream_response`) -/

/-- The fields of `chunk.usage` that the decoder reads. -/
structure RawUsage where
  prompt_tokens : Nat
  completion_tokens : Nat
  total_tokens : Nat
  prompt_tokens_details : Option Nat

/-- `tool_call_delta.function`. -/
structure FnDelta where
  name : Option String := none
  arguments : Option String := none

/-- One entry of `delta.tool_calls` (a raw tool-call fragment). -/
structure Frag where
  index : Nat
  id : Option String := none
  function : Option FnDelta := none

/-- `choice.delta`. -/
structure Delta where
  content : Option String := none
  tool_calls : Option (List Frag) := none

/-- One element of `chunk.choices`. -/
structure Choice where
  finish_reason : Option String := none
  delta : Delta := {}

/-- One streamed response chunk. -/
structure Chunk where
  usage : Option RawUsage := none
  choices : List Choice := []

/-- Python truthiness of an optional string (`if x:`): present and
non-empty. -/
def optTruthy : Option String → Bool
  | some s => s ≠ ""
  | none => false

/-! ## `client/llm_client.py` — the chunk decoder (`_stream_response`) -/

/-- One slot of the decoder's `tool_calls: dict[int, ...]`. -/
structure ToolAcc where
  id : Option String
  name : String
  arguments : String

/-- The association list modelling the insertion-ordered Python dict. -/
abbrev ToolState := List (Nat × ToolAcc)

def lookupAcc (st : ToolState) (idx : Nat) : Option ToolAcc :=
  match st.find? (fun p => p.1 = idx) with
  | some p => some p.2
  | none => none

def updateAcc (st : ToolState) (idx : Nat) (f : ToolAcc → ToolAcc) : ToolState :=
  st.map (fun p => if p.1 = idx then (p.1, f p.2) else p)

/-- Decoder state threaded through one pass. -/
structure DecState where
  usage : Option TokenUsage := none
  finish_reason : Option String := none
  tool_calls : ToolState := []

def mkStartEvent (call_id : Option String) (name : String) : StreamEvent :=
  { type := StreamEventType.TOOL_CALL_START,
    tool_call_delta := some { call_id := call_id, name := some name } }

def mkArgsDeltaEvent (call_id : Option String) (name : Option String)
    (delta : String) : StreamEvent :=
  { type := StreamEventType.TOOL_CALL_DELTA,
    tool_call_delta := some { call_id := call_id, name := name, arguments_delta := delta } }

/-- Process one raw tool-call fragment, mirroring the body of
`for tool_call_delta in delta.tool_calls`. -/
def processFrag (st : ToolState) (f : Frag) : ToolState × List StreamEvent :=
  let st :=
    if (lookupAcc st f.index).isNone
    then st ++ [(f.index, { id := f.id, name := "", arguments := "" })]
    else st
  let st := if optTruthy f.id then updateAcc st f.index (fun a => { a with id := f.id }) else st
  match f.function with
  | none => (st, [])
  | some fn =>
    let (st, nameEvs) :=
      match fn.name with
      | some nm =>
        if nm = "" then (st, [])
        else
          let previous_name := ((lookupAcc st f.index).getD { id := none, name := "", arguments := "" }).name
          let st' := updateAcc st f.index (fun a => { a with name := nm })
          let evs :=
            if previous_name = ""
            then [mkStartEvent ((lookupAcc st' f.index).getD { id := none, name := "", arguments := "" }).id nm]
            else []
          (st', evs)
      | none => (st, [])
    match fn.arguments with
    | some args =>
      if args = "" then (st, nameEvs)
      else
        let st' := updateAcc st f.index (fun a => { a with arguments := a.arguments ++ args })
        let cur := (lookupAcc st' f.index).getD { id := none, name := "", arguments := "" }
        (st', nameEvs ++ [mkArgsDeltaEvent cur.id (if cur.name ≠ "" then some cur.name else fn.name) args])
    | none => (st, nameEvs)

def runFrags (st : ToolState) : List Frag → ToolState × List StreamEvent
  | [] => (st, [])
  | f :: fs =>
    let (st1, evs1) := processFrag st f
    let (st2, evs2) := runFrags st1 fs
    (st2, evs1 ++ evs2)

/-- `chunk.usage` → `TokenUsage` as built in the source. -/
def usageOf (u : RawUsage) : TokenUsage :=
  { prompt_tokens := u.prompt_tokens,
    completion_tokens := u.completion_tokens,
    total_tokens := u.total_tokens,
    cached_tokens := u.prompt_tokens_details.getD 0 }

/-- Process one chunk, mirroring the body of `async for chunk in response`. -/
def procChunk (st : DecState) (c : Chunk) : DecState × List StreamEvent :=
  let st := match c.usage with
    | some u => { st with usage := some (usageOf u) }
    | none => st
  match c.choices with
  | [] => (st, [])
  | choice :: _ =>
    let st := if optTruthy choice.finish_reason
              then { st with finish_reason := choice.finish_reason } else st
    let textEvs :=
      if optTruthy choice.delta.content
      then [{ type := StreamEventType.TEXT_DELTA,
              text_delta := some ⟨choice.delta.content.getD ""⟩,
              finish_reason := st.finish_reason : StreamEvent }]
      else []
    match choice.delta.tool_calls with
    | some frags =>
      if frags.isEmpty then (st, textEvs)
      else
        let (ts, fragEvs) := runFrags st.tool_calls frags
        ({ st with tool_calls := ts }, textEvs ++ fragEvs)
    | none => (st, textEvs)

def runChunks (st : DecState) : List Chunk → DecState × List StreamEvent
  | [] => (st, [])
  | c :: cs =>
    let (st1, evs1) := procChunk st c
    let (st2, evs2) := runChunks st1 cs
    (st2, evs1 ++ evs2)

def mkCompleteEvent (acc : ToolAcc) : StreamEvent :=
  { type := StreamEventType.TOOL_CALL_COMPLETE,
    tool_call := some { call_id := acc.id, name := acc.name,
                        arguments := parse_tool_call_arguments acc.arguments } }

/-- Finalization loop: one `TOOL_CALL_COMPLETE` per dict entry, in the
dict's (insertion) iteration order. -/
def finalizeEvents (st : ToolState) : List StreamEvent :=
  st.map (fun p => mkCompleteEvent p.2)

def initDecState : DecState := {}

/-- The events a failed attempt has already yielded when the chunk
iterator raises after `pre` chunks (no finalization happens). -/
def prefixEvents (pre : List Chunk) : List StreamEvent :=
  (runChunks initDecState pre).2

/-- `LLMClient._stream_response` on a fully delivered chunk stream:
per-chunk events, then finalized tool calls, then `MESSAGE_COMPLETE`. -/
def stream_response (chunks : List Chunk) : List StreamEvent :=
  let (st, evs) := runChunks initDecState chunks
  evs ++ finalizeEvents st.tool_calls ++
    [{ type := StreamEventType.MESSAGE_COMPLETE,
       finish_reason := st.finish_reason, usage := st.usage }]

/-! ## `client/llm_client.py` — `chat_completion` (retry wrapper)

The backend is abstracted as a script assigning each attempt an outcome:
either the full chunk stream is delivered, or the transport raises one of
the three caught exception classes after some prefix of chunks (events for
that prefix were already yielded through to the consumer).  The request
payload (`messages`, `tools`, `model`) only shapes the external call and
does not influence the wrapper's control flow, so it is not threaded
through. -/

/-- The exception classes caught by `chat_completion`. -/
inductive ApiException where
  | rateLimit (msg : String)
  | connection (msg : String)
  | api (msg : String)

/-- What one attempt against the backend does. -/
inductive AttemptOutcome where
  | ok (chunks : List Chunk)
  | fail (pre : List Chunk) (exn : ApiException)

/-- Observable result of `chat_completion`: the yielded events, the
`asyncio.sleep` durations in order, and the number of attempts made. -/
structure ChatResult where
  events : List StreamEvent
  sleeps : List Nat
  attempts : Nat

/-- The `for attempt in range(self._max_retries)` loop.  `fuel` counts the
loop iterations still available (`maxRetries - attempt`); when it reaches
zero the generator simply returns, yielding nothing further.  The
`attempt < maxRetries` test is kept verbatim from the source. -/
def chatAttempts (maxRetries : Nat) (outcomes : Nat → AttemptOutcome) :
    Nat → Nat → ChatResult
  | 0, _ => { events := [], sleeps := [], attempts := 0 }
  | fuel + 1, attempt =>
    match outcomes attempt with
    | AttemptOutcome.ok chunks =>
      { events := stream_response chunks, sleeps := [], attempts := 1 }
    | AttemptOutcome.fail pre exn =>
      let evs := prefixEvents pre
      match exn with
      | ApiException.rateLimit m =>
        if attempt < maxRetries then
          let r := chatAttempts maxRetries outcomes fuel (attempt + 1)
          { events := evs ++ r.events, sleeps := 2 ^ attempt :: r.sleeps,
            attempts := r.attempts + 1 }
        else
          { events := evs ++ [{ type := StreamEventType.ERROR,
                                error := some ("Rate limit exceeded " ++ m) }],
            sleeps := [], attempts := 1 }
      | ApiException.connection m =>
        if attempt < maxRetries then
          let r := chatAttempts maxRetries outcomes fuel (attempt + 1)
          { events := evs ++ r.events, sleeps := 2 ^ attempt :: r.sleeps,
            attempts := r.attempts + 1 }
        else
          { events := evs ++ [{ type := StreamEventType.ERROR,
                                error := some ("Connection error " ++ m) }],
            sleeps := [], attempts := 1 }
      | ApiException.api m =>
        { events := evs ++ [{ type := StreamEventType.ERROR,
                              error := some ("API error " ++ m) }],
          sleeps := [], attempts := 1 }

/-- `LLMClient.chat_completion` with the constructor default
`self._max_retries = 3`. -/
def chat_completion (outcomes : Nat → AttemptOutcome) : ChatResult :=
  chatAttempts 3 outcomes 3 0

/-! ## `context/manager.py` — conversation context

`count_tokens` (a tiktoken wrapper from `utils/text.py`) is an external
tokenizer; it is threaded in as a function parameter `tok`.  The system
prompt (`prompts.system.get_system_prompt`, a module not present in the
sources) only affects `get_messages`, which the claims never consult. -/

/-- `MessageItem` dataclass. -/
structure MessageItem where
  role : String
  content : String
  token_count : Option Nat := none
deriving DecidableEq

/-- `ContextManager`: the append-only `_messages` log. -/
structure ContextManager where
  messages : List MessageItem := []
deriving DecidableEq

def ContextManager.add_user_message (tok : String → Nat) (cm : ContextManager)
    (content : String) : ContextManager :=
  { cm with messages :=
      cm.messages ++ [{ role := "user", content := content, token_count := some (tok content) }] }

def ContextManager.add_assistant_message (tok : String → Nat) (cm : ContextManager)
    (content : String) : ContextManager :=
  { cm with messages :=
      cm.messages ++ [{ role := "assistant", content := content, token_count := some (tok content) }] }

/-- Modelled from the spec: `ContextManager.add_tool_result` is called by
the orchestration loop (`agent/agent.py`) but its definition is not among
the sources (`context/manager.py` here stops at `get_messages`).  Per the
spec, a `ToolResult` "is folded into a new tool-role Message appended to
Context", so the call appends one tool-role `MessageItem` carrying the
given content. -/
def ContextManager.add_tool_result (tok : String → Nat) (cm : ContextManager)
    (_tool_call_id : Option String) (content : String) : ContextManager :=
  { cm with messages :=
      cm.messages ++ [{ role := "tool", content := content, token_count := some (tok content) }] }

/-! ## `tools/base.py` and `tools/registry.py` -/

/-- `ToolResult` dataclass. -/
structure ToolResult where
  success : Bool
  output : String
  error : Option String := none
  metadata : List (String × Json) := []
  truncated : Bool := false

def ToolResult.error_result (error : String) (output : String)
    (metadata : List (String × Json)) : ToolResult :=
  { success := false, output := output, error := some error, metadata := metadata }

/-- `ToolResult.to_model_output`.  A `None` error renders as the string
`"None"` under Python f-string formatting. -/
def ToolResult.to_model_output (r : ToolResult) : String :=
  if r.success then r.output
  else "Error: " ++ (match r.error with | some e => e | none => "None") ++
       "\nOutput: " ++ r.output

/-- A registered tool: its name, its parameter validation
(`validate_params`, returning one message per invalid parameter) and its
execution, which may raise (`Except.error` carries `str(e)`).  The working
directory passed through `ToolInvocation` is irrelevant to the claims and
elided. -/
structure Tool where
  name : String
  validate : Json → List String
  execute : Json → Except String ToolResult

/-- `ToolRegistry.invoke` over the registry's tools (the `dict[str, Tool]`
keyed by name is modelled as a list searched by name). -/
def ToolRegistry.invoke (tools : List Tool) (name : String) (params : Json) : ToolResult :=
  match tools.find? (fun t => t.name = name) with
  | none =>
    ToolResult.error_result ("Unknown tool: " ++ name) "" [("tool_name", Json.str name)]
  | some tool =>
    match tool.validate params with
    | [] =>
      match tool.execute params with
      | Except.ok result => result
      | Except.error e =>
        ToolResult.error_result ("Error invoking tool " ++ name ++ ": " ++ e) ""
          [("tool_name", Json.str name)]
    | errs =>
      ToolResult.error_result
        ("Invalid parameters for tool " ++ name ++ ": " ++ String.intercalate "; " errs) ""
        [("tool_name", Json.str name), ("validation_errors", Json.arr (errs.map Json.str))]

/-! ## `agent/events.py` and `agent/agent.py` -/

/-- `AgentEvent`, one constructor per classmethod constructor; the `data`
dict's entries become fields. -/
inductive AgentEvent where
  | agent_start (message : String)
  | agent_end (response : String)
  | agent_error (error : String)
  | text_delta (content : String)
  | text_complete (content : String)
  | tool_call_start (call_id : Option String) (name : String) (arguments : Json)
  | tool_call_complete (call_id : Option String) (name : String) (result : ToolResult)

/-- `event.error or "Unknown error"`. -/
def errorOrDefault : Option String → String
  | some s => if s = "" then "Unknown error" else s
  | none => "Unknown error"

/-- The event-consuming loop inside `Agent._agentic_loop`: accumulated
response text, collected finished tool calls, and the re-emitted agent
events, in order.  Each stream event's contribution is independent of the
accumulator, so the loop is phrased compositionally. -/
def foldClient : List StreamEvent → String × List ToolCall × List AgentEvent
  | [] => ("", [], [])
  | e :: rest =>
    let (t, cs, evs) := foldClient rest
    match e.type with
    | StreamEventType.TEXT_DELTA =>
      match e.text_delta with
      | some td => (td.content ++ t, cs, AgentEvent.text_delta td.content :: evs)
      | none => (t, cs, evs)
    | StreamEventType.TOOL_CALL_COMPLETE =>
      match e.tool_call with
      | some tc => (t, tc :: cs, evs)
      | none => (t, cs, evs)
    | StreamEventType.ERROR =>
      (t, cs, AgentEvent.agent_error (errorOrDefault e.error) :: evs)
    | _ => (t, cs, evs)

/-- The sequential tool-execution phase: per pending call, a
`tool_call_start` and a `tool_call_complete` event plus one queued
`ToolResultMessage` (its `tool_call_id` and rendered content). -/
def toolPhase (tools : List Tool) : List ToolCall → List AgentEvent × List (Option String × String)
  | [] => ([], [])
  | tc :: rest =>
    let result := ToolRegistry.invoke tools tc.name tc.arguments
    let (evs, msgs) := toolPhase tools rest
    (AgentEvent.tool_call_start tc.call_id tc.name tc.arguments ::
       AgentEvent.tool_call_complete tc.call_id tc.name result :: evs,
     (tc.call_id, result.to_model_output) :: msgs)

/-- `Agent._agentic_loop` on a given decoded event stream: lifecycle
events in emission order, and the context after the queued tool-result
messages are appended. -/
def agentic_loop (tok : String → Nat) (tools : List Tool)
    (clientEvents : List StreamEvent) (ctx : ContextManager) :
    List AgentEvent × ContextManager :=
  let (response_text, tool_calls, evs1) := foldClient clientEvents
  let evs2 := if response_text ≠ "" then [AgentEvent.text_complete response_text] else []
  let (evs3, msgs) := toolPhase tools tool_calls
  let ctx' := msgs.foldl (fun c m => c.add_tool_result tok m.1 m.2) ctx
  (evs1 ++ evs2 ++ evs3, ctx')

/-- `final_response` as maintained by `Agent.run`: the content of the last
`text_complete` event seen, initially `""`. -/
def finalResponse (evs : List AgentEvent) : String :=
  evs.foldl (fun acc e => match e with
    | AgentEvent.text_complete c => c
    | _ => acc) ""

/-- `Agent.run`: append the user message, drive one agentic loop over the
retrying completion stream, then append the assistant message and close
with `agent_end`. -/
def Agent.run (tok : String → Nat) (tools : List Tool)
    (outcomes : Nat → AttemptOutcome) (ctx : ContextManager) (message : String) :
    List AgentEvent × ContextManager :=
  let ctx1 := ctx.add_user_message tok message
  let (loopEvs, ctx2) := agentic_loop tok tools (chat_completion outcomes).events ctx1
  let final := finalResponse loopEvs
  (AgentEvent.agent_start message :: loopEvs ++ [AgentEvent.agent_end final],
   ctx2.add_assistant_message tok final)

/-! ## Helpers for stating the claims -/

/-- A chunk carrying one text fragment. -/
def textChunk (s : String) : Chunk :=
  { choices := [{ delta := { content := some s } }] }

/-- A chunk carrying one raw tool-call fragment. -/
def fragChunk (f : Frag) : Chunk :=
  { choices := [{ delta := { tool_calls := some [f] } }] }

/-- A raw tool-call fragment with the given index, id, name and argument
piece. -/
def mkFrag (idx : Nat) (i nm args : Option String) : Frag :=
  { index := idx, id := i, function := some { name := nm, arguments := args } }

def isCompleteEv (e : StreamEvent) : Bool :=
  match e.type with
  | StreamEventType.TOOL_CALL_COMPLETE => true
  | _ => false

def isStartEv (e : StreamEvent) : Bool :=
  match e.type with
  | StreamEventType.TOOL_CALL_START => true
  | _ => false

/-- The `TOOL_CALL_COMPLETE` events of a stream, in emission order. -/
def completeEvents (evs : List StreamEvent) : List StreamEvent :=
  evs.filter isCompleteEv

/-- The tool names of the finalized calls, in emission order. -/
def completeNames (evs : List StreamEvent) : List String :=
  evs.filterMap (fun e =>
    match e.type, e.tool_call with
    | StreamEventType.TOOL_CALL_COMPLETE, some tc => some tc.name
    | _, _ => none)

/-- The `(name, parsed-arguments)` payloads of the finalized calls. -/
def completePayloads (evs : List StreamEvent) : List (String × Json) :=
  evs.filterMap (fun e =>
    match e.type, e.tool_call with
    | StreamEventType.TOOL_CALL_COMPLETE, some tc => some (tc.name, tc.arguments)
    | _, _ => none)

def countStarts (evs : List StreamEvent) : Nat := evs.countP isStartEv

/-- The decoder's tool-call dict after consuming a whole chunk stream. -/
def decodeToolState (chunks : List Chunk) : ToolState :=
  (runChunks initDecState chunks).1.tool_calls

/-- Concatenation of the `TEXT_DELTA` payloads of a decoded stream, in
emission order. -/
def clientTextConcat : List StreamEvent → String
  | [] => ""
  | e :: rest =>
    (match e.type, e.text_delta with
     | StreamEventType.TEXT_DELTA, some td => td.content
     | _, _ => "") ++ clientTextConcat rest

/-- Concatenation of the `text_delta` payloads of a lifecycle-event
stream, in emission order. -/
def agentTextConcat : List AgentEvent → String
  | [] => ""
  | AgentEvent.text_delta c :: rest => c ++ agentTextConcat rest
  | _ :: rest => agentTextConcat rest

def isAgentErrorEv : AgentEvent → Bool
  | AgentEvent.agent_error _ => true
  | _ => false

def isToolStartEv : AgentEvent → Bool
  | AgentEvent.tool_call_start _ _ _ => true
  | _ => false

def isToolCompleteEv : AgentEvent → Bool
  | AgentEvent.tool_call_complete _ _ _ => true
  | _ => false

def isTurnFinishedEv : AgentEvent → Bool
  | AgentEvent.agent_end _ => true
  | _ => false

/-! ## C1 — retry budget boundary -/

/-- C1: the claim says a request whose attempts all fail transiently makes
`max_retries + 1 = 4` attempts and then surfaces a single error event.
The code loops `for attempt in range(self._max_retries)`, so only 3
attempts happen, the guard `attempt < self._max_retries` is always true,
and the error-yielding branch is dead: after backoff waits of 1, 2 and 4
the generator ends without yielding any event at all.  This theorem
evaluates the wrapper on a backend whose every attempt raises
`RateLimitError`. -/
theorem chat_completion_rate_limit_exhaustion_bug :
    (chat_completion (fun _ => AttemptOutcome.fail [] (ApiException.rateLimit "429"))).attempts = 3 ∧
    (chat_completion (fun _ => AttemptOutcome.fail [] (ApiException.rateLimit "429"))).events = [] ∧
    (chat_completion (fun _ => AttemptOutcome.fail [] (ApiException.rateLimit "429"))).sleeps = [1, 2, 4] :=
  ⟨rfl, rfl, rfl⟩

/-! ## C4 — exhausted rate limit at turn level -/

/-- C4: the claim says such a turn emits exactly one `TurnError`
mentioning rate limiting and leaves the Context without a new assistant
Message.  Because the wrapper never surfaces the error event (C1) the
loop sees an empty stream: zero `agent_error` events are emitted, and
`Agent.run` unconditionally appends an (empty) assistant message, so the
Context does gain one. -/
theorem rate_limit_turn_no_error_event_bug :
    (Agent.run String.length [] (fun _ => AttemptOutcome.fail [] (ApiException.rateLimit "429"))
        {} "hi").1 = [AgentEvent.agent_start "hi", AgentEvent.agent_end ""] ∧
    ((Agent.run String.length [] (fun _ => AttemptOutcome.fail [] (ApiException.rateLimit "429"))
        {} "hi").1.countP isAgentErrorEv) = 0 ∧
    (Agent.run String.length [] (fun _ => AttemptOutcome.fail [] (ApiException.rateLimit "429"))
        {} "hi").2.messages =
      [{ role := "user", content := "hi", token_count := some 2 },
       { role := "assistant", content := "", token_count := some 0 }] :=
  ⟨rfl, rfl, rfl⟩

/-! ## C10 — empty argument text -/

/-- C10: the empty argument text parses to the empty map, which is not
the `raw_arguments` fallback. -/
theorem parse_arguments_empty_map :
    parse_tool_call_arguments "" = Json.obj [] ∧
    parse_tool_call_arguments "" ≠ Json.obj [("raw_arguments", Json.str "")] :=
  ⟨rfl, fun h => nomatch h⟩

/-! ## C8 — malformed argument text -/

/-- C8 counterexample: `"123"` is not a structured (object) encoding, yet
`json.loads` parses it, so the function returns the bare number rather
than a `raw_arguments` map — the claim's universally quantified statement
fails at this input. -/
theorem parse_arguments_non_object_cex :
    parse_tool_call_arguments "123" = Json.num "123" ∧
    parse_tool_call_arguments "123" ≠ Json.obj [("raw_arguments", Json.str "123")] :=
  ⟨rfl, fun h => nomatch h⟩

/-- C8 (amended): for every non-empty argument text on which JSON parsing
fails, parsing does not raise and returns the map holding the single
`raw_arguments` entry bound to the unparsed text. -/
theorem parse_arguments_failure_fallback (s : String) (h1 : s ≠ "")
    (h2 : jsonParse s = none) :
    parse_tool_call_arguments s = Json.obj [("raw_arguments", Json.str s)] := by
  unfold parse_tool_call_arguments
  rw [if_neg h1, h2]

/-- Witness for the amended C8 at the concrete input `"not json"`. -/
theorem parse_arguments_failure_fallback_witness :
    "not json" ≠ "" ∧ jsonParse "not json" = none ∧
    parse_tool_call_arguments "not json" = Json.obj [("raw_arguments", Json.str "not json")] :=
  ⟨by decide, rfl, parse_arguments_failure_fallback "not json" (by decide) rfl⟩

/-! ## C3 — finalization order (counterexample half) -/

/-- C3 counterexample: fragments for index 1 arrive before fragments for
index 0.  Finalization iterates the accumulator dict in insertion order,
so the index-1 call (named `y`) is finalized before the index-0 call
(named `x`) — not in ascending index order as the claim requires for
every interleaving. -/
theorem finalize_insertion_order_cex :
    completeNames (stream_response
      [fragChunk (mkFrag 1 (some "c1") (some "y") none),
       fragChunk (mkFrag 0 (some "c0") (some "x") none)]) = ["y", "x"] ∧
    (decodeToolState
      [fragChunk (mkFrag 1 (some "c1") (some "y") none),
       fragChunk (mkFrag 0 (some "c0") (some "x") none)]).map Prod.fst = [1, 0] :=
  ⟨rfl, rfl⟩

/-! ## C7 — concatenation invariance (counterexample half) -/

/-- C7 counterexample: the claim quantifies over every split of the
call's *name* and argument text.  Splitting the name `"ab"` into two
non-empty fragments makes the assembler keep only the last piece (names
are overwritten, not concatenated), so the finalized payload differs from
the single-fragment payload. -/
theorem split_name_not_invariant_cex :
    completeNames (stream_response
      [fragChunk (mkFrag 0 (some "c") (some "a") none),
       fragChunk (mkFrag 0 none (some "b") none)]) = ["b"] ∧
    completeNames (stream_response
      [fragChunk (mkFrag 0 (some "c") (some "ab") none)]) = ["ab"] :=
  ⟨rfl, rfl⟩

/-! ## Per-index characterization of the assembler

`stepIdx`/`stepIdxEvents` restate what `processFrag` does to the single
slot `f.index` (all other slots are untouched); the four lemmas below
prove the correspondence. -/

def insertNew (ks : List Nat) (i : Nat) : List Nat :=
  if i ∈ ks then ks else ks ++ [i]

theorem lookupAcc_cons (p : Nat × ToolAcc) (st : ToolState) (j : Nat) :
    lookupAcc (p :: st) j = if p.1 = j then some p.2 else lookupAcc st j := by
  by_cases h : p.1 = j
  · simp [lookupAcc, List.find?_cons_of_pos, h]
  · simp [lookupAcc, List.find?_cons_of_neg, h]

theorem lookupAcc_nil (j : Nat) : lookupAcc [] j = none := rfl

theorem updateAcc_cons (p : Nat × ToolAcc) (st : ToolState) (idx : Nat)
    (g : ToolAcc → ToolAcc) :
    updateAcc (p :: st) idx g =
      (if p.1 = idx then (p.1, g p.2) else p) :: updateAcc st idx g := rfl

theorem lookupAcc_append (st : ToolState) (i : Nat) (a : ToolAcc) (j : Nat) :
    lookupAcc (st ++ [(i, a)]) j =
      match lookupAcc st j with
      | some b => some b
      | none => if j = i then some a else none := by
  induction st with
  | nil =>
    by_cases h : i = j <;>
      simp [lookupAcc_nil, lookupAcc_cons, h, eq_comm]
  | cons p st ih =>
    by_cases h : p.1 = j
    · simp [lookupAcc_cons, h]
    · simpa [lookupAcc_cons, h] using ih

theorem lookupAcc_update_self (st : ToolState) (idx : Nat) (g : ToolAcc → ToolAcc) :
    lookupAcc (updateAcc st idx g) idx = (lookupAcc st idx).map g := by
  induction st with
  | nil => rfl
  | cons p st ih =>
    by_cases h : p.1 = idx
    · simp [updateAcc_cons, lookupAcc_cons, h]
    · simpa [updateAcc_cons, lookupAcc_cons, h] using ih

theorem lookupAcc_update_ne (st : ToolState) (idx : Nat) (g : ToolAcc → ToolAcc)
    (j : Nat) (h : j ≠ idx) :
    lookupAcc (updateAcc st idx g) j = lookupAcc st j := by
  induction st with
  | nil => rfl
  | cons p st ih =>
    by_cases hp : p.1 = idx
    · have : p.1 ≠ j := fun he => h (he ▸ hp ▸ rfl)
      simp [updateAcc_cons, lookupAcc_cons, hp, this, Ne.symm h]
      exact ih
    · by_cases hj : p.1 = j
      · have hkeep : (if p.1 = idx then (p.1, g p.2) else p) = p := by simp [hp]
        rw [updateAcc_cons, hkeep, lookupAcc_cons, if_pos hj,
           lookupAcc_cons, if_pos hj]
      · simpa [updateAcc_cons, lookupAcc_cons, hp, hj] using ih

theorem updateAcc_keys (st : ToolState) (idx : Nat) (g : ToolAcc → ToolAcc) :
    (updateAcc st idx g).map Prod.fst = st.map Prod.fst := by
  induction st with
  | nil => rfl
  | cons p st ih =>
    by_cases h : p.1 = idx <;> simp [updateAcc_cons, h] <;> simpa using ih

theorem lookupAcc_eq_none_iff (st : ToolState) (idx : Nat) :
    lookupAcc st idx = none ↔ idx ∉ st.map Prod.fst := by
  induction st with
  | nil => simp [lookupAcc_nil]
  | cons p st ih =>
    by_cases h : p.1 = idx
    · simp [lookupAcc_cons, h]
    · simp only [lookupAcc_cons, if_neg h, List.map_cons, List.mem_cons]
      constructor
      · intro hn hmem
        rcases hmem with he | hm
        · exact h he.symm
        · exact (ih.mp hn) hm
      · intro hn
        exact ih.mpr (fun hm => hn (Or.inr hm))

def freshAcc (f : Frag) : ToolAcc := { id := f.id, name := "", arguments := "" }

def curOf (cur : Option ToolAcc) (f : Frag) : ToolAcc :=
  match cur with
  | some a => a
  | none => freshAcc f

def stepIdx (cur : Option ToolAcc) (f : Frag) : ToolAcc :=
  let a0 := curOf cur f
  let a1 := if optTruthy f.id then { a0 with id := f.id } else a0
  match f.function with
  | none => a1
  | some fn =>
    let a2 :=
      match fn.name with
      | some nm => if nm = "" then a1 else { a1 with name := nm }
      | none => a1
    match fn.arguments with
    | some args => if args = "" then a2 else { a2 with arguments := a2.arguments ++ args }
    | none => a2

def stepIdxEvents (cur : Option ToolAcc) (f : Frag) : List StreamEvent :=
  let a0 := curOf cur f
  let a1 := if optTruthy f.id then { a0 with id := f.id } else a0
  match f.function with
  | none => []
  | some fn =>
    let nameRes : ToolAcc × List StreamEvent :=
      match fn.name with
      | some nm =>
        if nm = "" then (a1, [])
        else ({ a1 with name := nm }, if a1.name = "" then [mkStartEvent a1.id nm] else [])
      | none => (a1, [])
    match fn.arguments with
    | some args =>
      if args = "" then nameRes.2
      else nameRes.2 ++ [mkArgsDeltaEvent nameRes.1.id
             (if nameRes.1.name ≠ "" then some nameRes.1.name else fn.name) args]
    | none => nameRes.2

theorem option_match_id {α : Type} (o : Option α) :
    (match o with | some b => some b | none => none) = o := by
  cases o <;> rfl

theorem processFrag_events (st : ToolState) (f : Frag) :
    (processFrag st f).2 = stepIdxEvents (lookupAcc st f.index) f := by
  rcases f with ⟨idx, fid, fno⟩
  cases hl : lookupAcc st idx <;>
    by_cases hid : optTruthy fid <;>
      rcases fno with _ | ⟨nmo, argo⟩ <;>
        (try rcases nmo with _ | nm) <;>
          (try rcases argo with _ | args) <;>
            (try by_cases hnm : nm = "") <;>
              (try by_cases harg : args = "") <;>
                simp [processFrag, stepIdxEvents, curOf, freshAcc,
                      lookupAcc_append, lookupAcc_update_self, *]

theorem processFrag_lookup_self (st : ToolState) (f : Frag) :
    lookupAcc (processFrag st f).1 f.index = some (stepIdx (lookupAcc st f.index) f) := by
  rcases f with ⟨idx, fid, fno⟩
  cases hl : lookupAcc st idx <;>
    by_cases hid : optTruthy fid <;>
      rcases fno with _ | ⟨nmo, argo⟩ <;>
        (try rcases nmo with _ | nm) <;>
          (try rcases argo with _ | args) <;>
            (try by_cases hnm : nm = "") <;>
              (try by_cases harg : args = "") <;>
                simp [processFrag, stepIdx, curOf, freshAcc,
                      lookupAcc_append, lookupAcc_update_self, *]

theorem processFrag_lookup_ne (st : ToolState) (f : Frag) (j : Nat) (h : j ≠ f.index) :
    lookupAcc (processFrag st f).1 j = lookupAcc st j := by
  rcases f with ⟨idx, fid, fno⟩
  simp only at h
  cases hl : lookupAcc st idx <;>
    by_cases hid : optTruthy fid <;>
      rcases fno with _ | ⟨nmo, argo⟩ <;>
        (try rcases nmo with _ | nm) <;>
          (try rcases argo with _ | args) <;>
            (try by_cases hnm : nm = "") <;>
              (try by_cases harg : args = "") <;>
                simp [processFrag, curOf, freshAcc, h,
                      lookupAcc_append, lookupAcc_update_ne, *] <;>
                  (cases lookupAcc st j <;> rfl)

theorem lookupAcc_mem (st : ToolState) (idx : Nat) {b : ToolAcc}
    (h : lookupAcc st idx = some b) : idx ∈ st.map Prod.fst := by
  by_contra hmem
  rw [(lookupAcc_eq_none_iff st idx).mpr hmem] at h
  exact Option.noConfusion h

theorem processFrag_keys (st : ToolState) (f : Frag) :
    (processFrag st f).1.map Prod.fst = insertNew (st.map Prod.fst) f.index := by
  rcases f with ⟨idx, fid, fno⟩
  cases hl : lookupAcc st idx <;>
    by_cases hid : optTruthy fid <;>
      rcases fno with _ | ⟨nmo, argo⟩ <;>
        (try rcases nmo with _ | nm) <;>
          (try rcases argo with _ | args) <;>
            (try by_cases hnm : nm = "") <;>
              (try by_cases harg : args = "") <;>
                simp [processFrag, insertNew, curOf, freshAcc, updateAcc_keys,
                      (lookupAcc_eq_none_iff st idx).mp, *] <;>
                  rw [if_pos (lookupAcc_mem st idx hl)]

def runIdxAcc (cur : Option ToolAcc) : List Frag → Option ToolAcc
  | [] => cur
  | f :: fs => runIdxAcc (some (stepIdx cur f)) fs

def runIdxSteps (cur : Option ToolAcc) : List Frag → List (List StreamEvent)
  | [] => []
  | f :: fs => stepIdxEvents cur f :: runIdxSteps (some (stepIdx cur f)) fs

theorem runFrags_cons_fst (st : ToolState) (f : Frag) (fs : List Frag) :
    (runFrags st (f :: fs)).1 = (runFrags (processFrag st f).1 fs).1 := by
  simp [runFrags]

theorem runFrags_cons_snd (st : ToolState) (f : Frag) (fs : List Frag) :
    (runFrags st (f :: fs)).2 = (processFrag st f).2 ++ (runFrags (processFrag st f).1 fs).2 := by
  simp [runFrags]

theorem runFrags_lookup (fs : List Frag) (st : ToolState) (idx : Nat) :
    lookupAcc (runFrags st fs).1 idx =
      runIdxAcc (lookupAcc st idx) (fs.filter (fun f => f.index = idx)) := by
  induction fs generalizing st with
  | nil => rfl
  | cons f fs ih =>
    by_cases h : f.index = idx
    · subst h
      rw [runFrags_cons_fst, ih, processFrag_lookup_self,
          List.filter_cons_of_pos (by simp)]
      rfl
    · rw [runFrags_cons_fst, ih, processFrag_lookup_ne st f idx (fun he => h he.symm),
          List.filter_cons_of_neg (by simp [h])]

theorem runFrags_keys (fs : List Frag) (st : ToolState) :
    (runFrags st fs).1.map Prod.fst =
      fs.foldl (fun ks f => insertNew ks f.index) (st.map Prod.fst) := by
  induction fs generalizing st with
  | nil => rfl
  | cons f fs ih =>
    rw [runFrags_cons_fst, ih, List.foldl_cons, processFrag_keys]

/-- The events `runFrags` emits, presented step by step: each fragment's
contribution depends only on the slot for its index at that moment. -/
def fragStepsEvents (st : ToolState) : List Frag → List StreamEvent
  | [] => []
  | f :: fs => stepIdxEvents (lookupAcc st f.index) f ++ fragStepsEvents (processFrag st f).1 fs

theorem runFrags_events (fs : List Frag) (st : ToolState) :
    (runFrags st fs).2 = fragStepsEvents st fs := by
  induction fs generalizing st with
  | nil => rfl
  | cons f fs ih =>
    rw [runFrags_cons_snd, fragStepsEvents, processFrag_events, ih]

/-- The per-step events emitted while processing exactly the fragments of
one index, inside a run over the whole fragment sequence. -/
def idxStepsIn (st : ToolState) (idx : Nat) : List Frag → List (List StreamEvent)
  | [] => []
  | f :: fs =>
    (if f.index = idx then [stepIdxEvents (lookupAcc st f.index) f] else []) ++
      idxStepsIn (processFrag st f).1 idx fs

theorem idxStepsIn_eq_runIdxSteps (fs : List Frag) (st : ToolState) (idx : Nat) :
    idxStepsIn st idx fs =
      runIdxSteps (lookupAcc st idx) (fs.filter (fun f => f.index = idx)) := by
  induction fs generalizing st with
  | nil => rfl
  | cons f fs ih =>
    by_cases h : f.index = idx
    · subst h
      rw [idxStepsIn, if_pos rfl, ih, processFrag_lookup_self,
          List.filter_cons_of_pos (by simp)]
      rfl
    · rw [idxStepsIn, if_neg h, ih, processFrag_lookup_ne st f idx (fun he => h he.symm),
          List.filter_cons_of_neg (by simp [h])]
      rfl

theorem stepIdxEvents_types (cur : Option ToolAcc) (f : Frag) :
    ∀ e ∈ stepIdxEvents cur f,
      e.type = StreamEventType.TOOL_CALL_START ∨ e.type = StreamEventType.TOOL_CALL_DELTA := by
  intro e he
  rcases f with ⟨idx, fid, fno⟩
  rcases fno with _ | ⟨nmo, argo⟩
  · simp [stepIdxEvents] at he
  · rcases nmo with _ | nm <;> rcases argo with _ | args <;>
      simp only [stepIdxEvents] at he <;>
        (repeat' split at he) <;>
          simp_all [mkStartEvent, mkArgsDeltaEvent] <;>
            (try rcases he with rfl | rfl) <;> simp

theorem runFrags_types (fs : List Frag) (st : ToolState) :
    ∀ e ∈ (runFrags st fs).2,
      e.type = StreamEventType.TOOL_CALL_START ∨ e.type = StreamEventType.TOOL_CALL_DELTA := by
  induction fs generalizing st with
  | nil => intro e he; exact absurd he (by simp [runFrags])
  | cons f fs ih =>
    intro e he
    rw [runFrags_cons_snd] at he
    rcases List.mem_append.mp he with h1 | h2
    · rw [processFrag_events] at h1
      exact stepIdxEvents_types _ _ e h1
    · exact ih _ e h2

/-! ## Chunk-level decomposition -/

/-- The raw tool-call fragments one chunk routes to the assembler. -/
def chunkFrags (c : Chunk) : List Frag :=
  match c.choices with
  | [] => []
  | ch :: _ =>
    match ch.delta.tool_calls with
    | some fs => fs
    | none => []

/-- All fragments of a chunk stream, in processing order. -/
def allFrags : List Chunk → List Frag
  | [] => []
  | c :: cs => chunkFrags c ++ allFrags cs

/-- The text payload a chunk contributes (empty when the `content` field
is absent or empty). -/
def chunkText (c : Chunk) : String :=
  match c.choices with
  | [] => ""
  | ch :: _ => if optTruthy ch.delta.content then ch.delta.content.getD "" else ""

def chunksText : List Chunk → String
  | [] => ""
  | c :: cs => chunkText c ++ chunksText cs

theorem runFrags_append_fst (a b : List Frag) (st : ToolState) :
    (runFrags st (a ++ b)).1 = (runFrags (runFrags st a).1 b).1 := by
  induction a generalizing st with
  | nil => rfl
  | cons f fs ih => rw [List.cons_append, runFrags_cons_fst, ih, runFrags_cons_fst]

theorem procChunk_toolcalls (st : DecState) (c : Chunk) :
    (procChunk st c).1.tool_calls = (runFrags st.tool_calls (chunkFrags c)).1 := by
  rcases c with ⟨uso, chs⟩
  rcases chs with _ | ⟨ch, rest⟩
  · cases uso <;> rfl
  · rcases ch with ⟨fr, ⟨cont, tcs⟩⟩
    rcases tcs with _ | fs
    · cases uso <;> by_cases hfr : optTruthy fr <;> by_cases hc : optTruthy cont <;>
        simp [procChunk, chunkFrags, runFrags, *]
    · rcases fs with _ | ⟨f, fs⟩ <;>
        cases uso <;> by_cases hfr : optTruthy fr <;> by_cases hc : optTruthy cont <;>
          simp [procChunk, chunkFrags, runFrags, *]

theorem procChunk_events_split (st : DecState) (c : Chunk) :
    ∃ tevs, (procChunk st c).2 = tevs ++ (runFrags st.tool_calls (chunkFrags c)).2 ∧
      (∀ e ∈ tevs, e.type = StreamEventType.TEXT_DELTA) ∧
      clientTextConcat tevs = chunkText c := by
  rcases c with ⟨uso, chs⟩
  rcases chs with _ | ⟨ch, rest⟩
  · refine ⟨[], ?_, by simp, rfl⟩
    cases uso <;> simp [procChunk, chunkFrags, runFrags]
  · rcases ch with ⟨fr, ⟨cont, tcs⟩⟩
    rcases tcs with _ | fs
    · refine ⟨(procChunk st ⟨uso, ⟨fr, ⟨cont, none⟩⟩ :: rest⟩).2, ?_, ?_, ?_⟩ <;>
        cases uso <;> by_cases hfr : optTruthy fr <;> by_cases hc : optTruthy cont <;>
          simp [procChunk, chunkFrags, runFrags, chunkText, clientTextConcat,
                String.append_empty, *]
    · rcases fs with _ | ⟨f, fs⟩
      · refine ⟨(procChunk st ⟨uso, ⟨fr, ⟨cont, some []⟩⟩ :: rest⟩).2, ?_, ?_, ?_⟩ <;>
          cases uso <;> by_cases hfr : optTruthy fr <;> by_cases hc : optTruthy cont <;>
            simp [procChunk, chunkFrags, runFrags, chunkText, clientTextConcat,
                  String.append_empty, *]
      · refine ⟨(if optTruthy cont
            then [{ type := StreamEventType.TEXT_DELTA, text_delta := some ⟨cont.getD ""⟩,
                    finish_reason := (if optTruthy fr
                      then { st with finish_reason := fr } else st).finish_reason : StreamEvent }]
            else []), ?_, ?_, ?_⟩ <;>
          cases uso <;> by_cases hfr : optTruthy fr <;> by_cases hc : optTruthy cont <;>
            simp [procChunk, chunkFrags, chunkText, clientTextConcat,
                  String.append_empty, *]

theorem runChunks_cons_fst (st : DecState) (c : Chunk) (cs : List Chunk) :
    (runChunks st (c :: cs)).1 = (runChunks (procChunk st c).1 cs).1 := by
  simp [runChunks]

theorem runChunks_cons_snd (st : DecState) (c : Chunk) (cs : List Chunk) :
    (runChunks st (c :: cs)).2 = (procChunk st c).2 ++ (runChunks (procChunk st c).1 cs).2 := by
  simp [runChunks]

theorem runChunks_toolcalls (cs : List Chunk) (st : DecState) :
    (runChunks st cs).1.tool_calls = (runFrags st.tool_calls (allFrags cs)).1 := by
  induction cs generalizing st with
  | nil => rfl
  | cons c cs ih =>
    rw [runChunks_cons_fst, ih, procChunk_toolcalls, allFrags, ← runFrags_append_fst]

theorem clientTextConcat_append (a b : List StreamEvent) :
    clientTextConcat (a ++ b) = clientTextConcat a ++ clientTextConcat b := by
  induction a with
  | nil => rw [List.nil_append, clientTextConcat, String.empty_append]
  | cons e a ih => rw [List.cons_append, clientTextConcat, clientTextConcat, ih,
                       String.append_assoc]

theorem clientTextConcat_nonText (evs : List StreamEvent)
    (h : ∀ e ∈ evs, e.type ≠ StreamEventType.TEXT_DELTA) :
    clientTextConcat evs = "" := by
  induction evs with
  | nil => rfl
  | cons e evs ih =>
    rw [clientTextConcat]
    have he := h e (by simp)
    have : (match e.type, e.text_delta with
      | StreamEventType.TEXT_DELTA, some td => td.content
      | _, _ => "") = "" := by
      rcases ht : e.type
      · exact absurd ht he
      · simp [ht]
      · simp [ht]
      · simp [ht]
      · simp [ht]
      · simp [ht]
    rw [this, ih (fun e' h' => h e' (by simp [h'])), String.empty_append]

theorem clientTextConcat_of_types (evs : List StreamEvent)
    (h : ∀ e ∈ evs, e.type = StreamEventType.TOOL_CALL_START ∨
                    e.type = StreamEventType.TOOL_CALL_DELTA) :
    clientTextConcat evs = "" := by
  refine clientTextConcat_nonText evs (fun e he hq => ?_)
  rcases h e he with h1 | h1 <;> rw [hq] at h1 <;> exact StreamEventType.noConfusion h1

theorem runChunks_text (cs : List Chunk) (st : DecState) :
    clientTextConcat (runChunks st cs).2 = chunksText cs := by
  induction cs generalizing st with
  | nil => rfl
  | cons c cs ih =>
    rw [runChunks_cons_snd, clientTextConcat_append, ih, chunksText]
    obtain ⟨tevs, hsplit, htypes, htext⟩ := procChunk_events_split st c
    rw [hsplit, clientTextConcat_append, htext,
        clientTextConcat_of_types _ (runFrags_types _ _), String.append_empty]

theorem runChunks_types (cs : List Chunk) (st : DecState) :
    ∀ e ∈ (runChunks st cs).2,
      e.type = StreamEventType.TEXT_DELTA ∨ e.type = StreamEventType.TOOL_CALL_START ∨
      e.type = StreamEventType.TOOL_CALL_DELTA := by
  induction cs generalizing st with
  | nil => intro e he; exact absurd he (by simp [runChunks])
  | cons c cs ih =>
    intro e he
    rw [runChunks_cons_snd] at he
    rcases List.mem_append.mp he with h1 | h2
    · obtain ⟨tevs, hsplit, htypes, htext⟩ := procChunk_events_split st c
      rw [hsplit] at h1
      rcases List.mem_append.mp h1 with ht | hf
      · exact Or.inl (htypes e ht)
      · rcases runFrags_types _ _ e hf with h | h
        · exact Or.inr (Or.inl h)
        · exact Or.inr (Or.inr h)
    · exact ih _ e h2

theorem fragStepsEvents_append (a b : List Frag) (st : ToolState) :
    fragStepsEvents st (a ++ b) =
      fragStepsEvents st a ++ fragStepsEvents (runFrags st a).1 b := by
  induction a generalizing st with
  | nil => rfl
  | cons f fs ih =>
    rw [List.cons_append, fragStepsEvents, fragStepsEvents, ih, runFrags_cons_fst,
        List.append_assoc]

theorem runChunks_fragSteps_sublist (cs : List Chunk) (st : DecState) :
    (fragStepsEvents st.tool_calls (allFrags cs)).Sublist (runChunks st cs).2 := by
  induction cs generalizing st with
  | nil => simp [allFrags, fragStepsEvents, runChunks]
  | cons c cs ih =>
    rw [runChunks_cons_snd, allFrags, fragStepsEvents_append]
    obtain ⟨tevs, hsplit, htypes, htext⟩ := procChunk_events_split st c
    rw [hsplit]
    have h1 : (fragStepsEvents st.tool_calls (chunkFrags c)).Sublist
        (tevs ++ (runFrags st.tool_calls (chunkFrags c)).2) := by
      rw [← runFrags_events]
      exact List.sublist_append_right _ _
    have h2 : (fragStepsEvents (runFrags st.tool_calls (chunkFrags c)).1 (allFrags cs)).Sublist
        (runChunks (procChunk st c).1 cs).2 := by
      rw [← procChunk_toolcalls]
      exact ih _
    exact h1.append h2

/-- The fragments a chunk stream routes to index `idx`, in arrival
order. -/
def fragsFor (cs : List Chunk) (idx : Nat) : List Frag :=
  (allFrags cs).filter (fun f => f.index = idx)

theorem join_idxSteps_sublist (fs : List Frag) (st : ToolState) (idx : Nat) :
    (idxStepsIn st idx fs).flatten.Sublist (fragStepsEvents st fs) := by
  induction fs generalizing st with
  | nil => simp [idxStepsIn, fragStepsEvents]
  | cons f fs ih =>
    rw [idxStepsIn, fragStepsEvents, List.flatten_append]
    by_cases h : f.index = idx
    · rw [if_pos h]
      simp only [List.flatten_cons, List.flatten_nil, List.append_nil]
      exact (ih _).append_left _
    · rw [if_neg h]
      simp only [List.flatten_nil, List.nil_append]
      exact (ih _).trans (List.sublist_append_right _ _)

/-! ## Shape of `stream_response` output -/

theorem finalize_all_complete (st : ToolState) :
    ∀ e ∈ finalizeEvents st, e.type = StreamEventType.TOOL_CALL_COMPLETE := by
  intro e he
  obtain ⟨p, _, rfl⟩ := List.mem_map.mp he
  rfl

/-- A stream event whose type is not `TOOL_CALL_COMPLETE` contributes
nothing to the finalized-call projections. -/
theorem completePayloads_skip (e : StreamEvent)
    (h : e.type ≠ StreamEventType.TOOL_CALL_COMPLETE) :
    (match e.type, e.tool_call with
     | StreamEventType.TOOL_CALL_COMPLETE, some tc => some (tc.name, tc.arguments)
     | _, _ => none) = none := by
  rcases ht : e.type
  · simp [ht]
  · simp [ht]
  · simp [ht]
  · simp [ht]
  · simp [ht]
  · exact absurd ht h

theorem completePayloads_append (a b : List StreamEvent) :
    completePayloads (a ++ b) = completePayloads a ++ completePayloads b := by
  simp [completePayloads]

theorem completePayloads_of_types (evs : List StreamEvent)
    (h : ∀ e ∈ evs, e.type ≠ StreamEventType.TOOL_CALL_COMPLETE) :
    completePayloads evs = [] := by
  induction evs with
  | nil => rfl
  | cons e evs ih =>
    simp only [completePayloads, List.filterMap_cons] at ih ⊢
    rw [completePayloads_skip e (h e (by simp))]
    exact ih (fun e' h' => h e' (by simp [h']))

/-- The finalized payloads of a full decoding pass are exactly the
assembler dict's entries, in dict order. -/
theorem stream_response_payloads (cs : List Chunk) :
    completePayloads (stream_response cs) =
      (decodeToolState cs).map
        (fun p => (p.2.name, parse_tool_call_arguments p.2.arguments)) := by
  have hrun : completePayloads (runChunks initDecState cs).2 = [] := by
    refine completePayloads_of_types _ (fun e he hq => ?_)
    rcases runChunks_types cs initDecState e he with h | h | h <;>
      rw [hq] at h <;> exact StreamEventType.noConfusion h
  have hfin : ∀ st : ToolState, completePayloads (finalizeEvents st) =
      st.map (fun p => (p.2.name, parse_tool_call_arguments p.2.arguments)) := by
    intro st
    induction st with
    | nil => rfl
    | cons p st ih =>
      simp only [finalizeEvents, List.map_cons, completePayloads, List.filterMap_cons] at ih ⊢
      rw [ih]
      rfl
  show completePayloads ((runChunks initDecState cs).2 ++
    finalizeEvents (runChunks initDecState cs).1.tool_calls ++ [_]) = _
  rw [completePayloads_append, completePayloads_append, hrun, hfin]
  simp [completePayloads, decodeToolState]

/-! ## Lemmas about the orchestration loop's event fold -/

theorem foldClient_append (a b : List StreamEvent) :
    foldClient (a ++ b) =
      ((foldClient a).1 ++ (foldClient b).1,
       (foldClient a).2.1 ++ (foldClient b).2.1,
       (foldClient a).2.2 ++ (foldClient b).2.2) := by
  induction a with
  | nil => simp [foldClient, String.empty_append]
  | cons e a ih =>
    rcases ht : e.type <;>
      simp only [List.cons_append, foldClient, ht, ih] <;>
        (try cases e.text_delta) <;> (try cases e.tool_call) <;>
          simp [ih, String.append_assoc]

/-- The lifecycle events the loop re-emits for a run of benign stream
events (`text_delta` per non-empty text fragment, nothing else). -/
def agentDeltaEvents : List StreamEvent → List AgentEvent
  | [] => []
  | e :: rest =>
    (match e.type, e.text_delta with
     | StreamEventType.TEXT_DELTA, some td => [AgentEvent.text_delta td.content]
     | _, _ => []) ++ agentDeltaEvents rest

theorem foldClient_benign (evs : List StreamEvent)
    (h : ∀ e ∈ evs, e.type ≠ StreamEventType.ERROR ∧
                    e.type ≠ StreamEventType.TOOL_CALL_COMPLETE) :
    foldClient evs = (clientTextConcat evs, [], agentDeltaEvents evs) := by
  induction evs with
  | nil => rfl
  | cons e evs ih =>
    have he := h e (by simp)
    have ih' := ih (fun e' h' => h e' (by simp [h']))
    rcases ht : e.type <;>
      simp only [foldClient, clientTextConcat, agentDeltaEvents, ht, ih'] <;>
        (try cases e.text_delta) <;>
          simp_all [String.empty_append]

theorem agentDeltaEvents_shape (evs : List StreamEvent) :
    ∀ e ∈ agentDeltaEvents evs, ∃ c, e = AgentEvent.text_delta c := by
  induction evs with
  | nil => intro e he; exact absurd he (by simp [agentDeltaEvents])
  | cons x evs ih =>
    intro e he
    rw [agentDeltaEvents] at he
    rcases List.mem_append.mp he with h1 | h2
    · rcases ht : x.type <;> rw [ht] at h1 <;>
        (try rcases hd : x.text_delta with _ | td) <;> (try rw [hd] at h1) <;>
          simp at h1 <;> exact ⟨_, h1⟩
    · exact ih e h2

theorem agentTextConcat_append (a b : List AgentEvent) :
    agentTextConcat (a ++ b) = agentTextConcat a ++ agentTextConcat b := by
  induction a with
  | nil => rw [List.nil_append, agentTextConcat, String.empty_append]
  | cons e a ih =>
    have hab : a.append b = a ++ b := rfl
    rcases e <;> simp only [List.cons_append, agentTextConcat, hab, ih] <;>
      rw [String.append_assoc]

theorem agentTextConcat_deltaEvents (evs : List StreamEvent) :
    agentTextConcat (agentDeltaEvents evs) = clientTextConcat evs := by
  induction evs with
  | nil => rfl
  | cons e evs ih =>
    rw [agentDeltaEvents, clientTextConcat, agentTextConcat_append, ih]
    rcases ht : e.type <;> (try cases e.text_delta) <;>
      simp [agentTextConcat, String.empty_append]

theorem countP_eq_zero_of_shape (l : List AgentEvent) (p : AgentEvent → Bool)
    (h : ∀ e ∈ l, p e = false) : l.countP p = 0 := by
  induction l with
  | nil => rfl
  | cons e l ih =>
    rw [List.countP_cons, h e (by simp), ih (fun e' h' => h e' (by simp [h']))]
    simp

theorem finalResponse_skip (l : List AgentEvent) (acc : String)
    (h : ∀ e ∈ l, ∀ c, e ≠ AgentEvent.text_complete c) :
    l.foldl (fun acc e => match e with
      | AgentEvent.text_complete c => c
      | _ => acc) acc = acc := by
  induction l generalizing acc with
  | nil => rfl
  | cons e l ih =>
    rw [List.foldl_cons]
    have he := h e (by simp)
    rcases e <;> simp_all

/-! ## C3 — finalization order (amended half) -/

/-- The indices of a stream's tool-call fragments in order of first
appearance — the insertion order of the assembler's dict. -/
def firstAppearanceList (cs : List Chunk) : List Nat :=
  (allFrags cs).foldl (fun ks f => insertNew ks f.index) []

theorem decode_keys_eq (cs : List Chunk) :
    (decodeToolState cs).map Prod.fst = firstAppearanceList cs := by
  show (runChunks initDecState cs).1.tool_calls.map Prod.fst = _
  rw [runChunks_toolcalls, runFrags_keys]
  rfl

theorem foldl_insertNew_nodup (fs : List Frag) (ks : List Nat) (h : ks.Nodup) :
    (fs.foldl (fun ks f => insertNew ks f.index) ks).Nodup := by
  induction fs generalizing ks with
  | nil => exact h
  | cons f fs ih =>
    rw [List.foldl_cons]
    refine ih _ ?_
    unfold insertNew
    split
    · exact h
    · simp_all [List.nodup_append]

theorem isCompleteEv_false (e : StreamEvent)
    (h : e.type ≠ StreamEventType.TOOL_CALL_COMPLETE) : isCompleteEv e = false := by
  rcases ht : e.type <;> simp [isCompleteEv, ht] <;> exact h ht

theorem completeEvents_stream_response (cs : List Chunk) :
    completeEvents (stream_response cs) = finalizeEvents (decodeToolState cs) := by
  show completeEvents ((runChunks initDecState cs).2 ++
    finalizeEvents (runChunks initDecState cs).1.tool_calls ++ [_]) = _
  unfold completeEvents
  rw [List.filter_append, List.filter_append]
  have h1 : (runChunks initDecState cs).2.filter isCompleteEv = [] := by
    rw [List.filter_eq_nil_iff]
    intro e he
    intro hq
    rcases runChunks_types cs initDecState e he with h | h | h <;>
      rw [isCompleteEv_false e (by rw [h]; intro hx; exact StreamEventType.noConfusion hx)] at hq <;>
        exact Bool.noConfusion hq
  have h2 : (finalizeEvents (runChunks initDecState cs).1.tool_calls).filter isCompleteEv =
      finalizeEvents (runChunks initDecState cs).1.tool_calls := by
    rw [List.filter_eq_self]
    intro e he
    have hc := finalize_all_complete _ e he
    simp [isCompleteEv, hc]
  rw [h1, h2]
  simp [decodeToolState, isCompleteEv]

/-- C3 (amended): after the stream is exhausted, exactly one
`ToolCallFinished` is emitted per open index, in the assembler dict's
insertion order — the order of each index's first appearance.  When the
indices' first appearances happen in ascending order (the usual provider
behaviour), the finalized sequence is therefore sorted by ascending index
and hits each open index exactly once. -/
theorem finalize_ascending_when_first_appearance_sorted (chunks : List Chunk)
    (h : List.Sorted (· < ·) (firstAppearanceList chunks)) :
    completeEvents (stream_response chunks) =
      (decodeToolState chunks).map (fun p => mkCompleteEvent p.2) ∧
    List.Sorted (· < ·) ((decodeToolState chunks).map Prod.fst) ∧
    ((decodeToolState chunks).map Prod.fst).Nodup := by
  refine ⟨?_, ?_, ?_⟩
  · rw [completeEvents_stream_response]
    rfl
  · rw [decode_keys_eq]
    exact h
  · rw [decode_keys_eq]
    exact foldl_insertNew_nodup _ _ List.nodup_nil

/-- Witness for the amended C3 on a two-call stream whose indices first
appear in order 0, 1. -/
theorem finalize_ascending_witness :
    List.Sorted (· < ·) (firstAppearanceList
      [fragChunk (mkFrag 0 (some "a") (some "x") none),
       fragChunk (mkFrag 1 (some "b") (some "y") none)]) ∧
    List.Sorted (· < ·) ((decodeToolState
      [fragChunk (mkFrag 0 (some "a") (some "x") none),
       fragChunk (mkFrag 1 (some "b") (some "y") none)]).map Prod.fst) :=
  ⟨by decide,
   (finalize_ascending_when_first_appearance_sorted _ (by decide)).2.1⟩

/-! ## Per-fragment name/argument projections (C7, C9) -/

/-- The name a fragment carries, when non-empty (Python truthiness). -/
def truthyName (f : Frag) : Option String :=
  match f.function with
  | some fn =>
    match fn.name with
    | some n => if n = "" then none else some n
    | none => none
  | none => none

/-- The argument text a fragment contributes (the empty string when
absent; appending the empty string is the identity, matching the
guarded `+=` in the source). -/
def argPiece (f : Frag) : String :=
  match f.function with
  | some fn => fn.arguments.getD ""
  | none => ""

def argsConcat : List Frag → String
  | [] => ""
  | f :: fs => argPiece f ++ argsConcat fs

/-- The name currently stored for a slot (`""` when the slot is not yet
open). -/
def curName : Option ToolAcc → String
  | none => ""
  | some a => a.name

/-- The argument text currently stored for a slot. -/
def curArgs : Option ToolAcc → String
  | none => ""
  | some a => a.arguments

/-- Right fold computing "the last present value, else the default". -/
def lastD : List (Option String) → String → String
  | [], d => d
  | o :: os, d => lastD os (o.getD d)

theorem stepIdx_name (cur : Option ToolAcc) (f : Frag) :
    (stepIdx cur f).name = (truthyName f).getD (curName cur) := by
  rcases f with ⟨idx, fid, fno⟩
  rcases fno with _ | ⟨nmo, argo⟩ <;>
    (try rcases nmo with _ | nm) <;>
      (try rcases argo with _ | args) <;>
        (try by_cases hnm : nm = "") <;>
          (try by_cases harg : args = "") <;>
            cases cur <;>
              simp [stepIdx, truthyName, curName, curOf, freshAcc, *] <;>
                (try (split <;> rfl))

theorem stepIdx_args (cur : Option ToolAcc) (f : Frag) :
    (stepIdx cur f).arguments = curArgs cur ++ argPiece f := by
  rcases f with ⟨idx, fid, fno⟩
  rcases fno with _ | ⟨nmo, argo⟩ <;>
    (try rcases nmo with _ | nm) <;>
      (try rcases argo with _ | args) <;>
        (try by_cases hnm : nm = "") <;>
          (try by_cases harg : args = "") <;>
            cases cur <;>
              simp [stepIdx, argPiece, curArgs, curOf, freshAcc, String.append_empty, *] <;>
                (try (split <;> rfl))

theorem curName_runIdxAcc (fs : List Frag) (cur : Option ToolAcc) :
    curName (runIdxAcc cur fs) = lastD (fs.map truthyName) (curName cur) := by
  induction fs generalizing cur with
  | nil => rfl
  | cons f fs ih =>
    rw [runIdxAcc, List.map_cons, lastD, ih]
    congr 1
    show (stepIdx cur f).name = _
    rw [stepIdx_name]

theorem curArgs_runIdxAcc (fs : List Frag) (cur : Option ToolAcc) :
    curArgs (runIdxAcc cur fs) = curArgs cur ++ argsConcat fs := by
  induction fs generalizing cur with
  | nil => rw [argsConcat, runIdxAcc, String.append_empty]
  | cons f fs ih =>
    rw [runIdxAcc, argsConcat, ih, ← String.append_assoc]
    congr 1
    show (stepIdx cur f).arguments = _
    rw [stepIdx_args]

theorem truthyName_ne_empty (f : Frag) (nm : String) (h : truthyName f = some nm) :
    nm ≠ "" := by
  rcases f with ⟨idx, fid, fno⟩
  rcases fno with _ | ⟨nmo, argo⟩ <;> (try rcases nmo with _ | n) <;>
    simp [truthyName] at h
  rcases h with ⟨hne, rfl⟩
  exact hne

theorem lastD_of_filterMap_nil (os : List (Option String)) (d : String)
    (h : os.filterMap id = []) : lastD os d = d := by
  induction os generalizing d with
  | nil => rfl
  | cons o os ih =>
    rcases o with _ | a
    · rw [lastD]
      exact ih d (by simpa using h)
    · simp [List.filterMap_cons] at h

theorem lastD_single (os : List (Option String)) (nm d : String)
    (h : os.filterMap id = [nm]) : lastD os d = nm := by
  induction os generalizing d with
  | nil => simp [List.filterMap_nil] at h
  | cons o os ih =>
    rcases o with _ | a
    · rw [lastD]
      exact ih _ (by simpa using h)
    · rw [List.filterMap_cons] at h
      simp only [id] at h
      rcases List.cons_eq_cons.mp h with ⟨rfl, hrest⟩
      rw [lastD]
      exact lastD_of_filterMap_nil os _ hrest

theorem allFrags_map_fragChunk (frags : List Frag) :
    allFrags (frags.map fragChunk) = frags := by
  induction frags with
  | nil => rfl
  | cons f fs ih => simp [allFrags, fragChunk, chunkFrags, ih]

theorem foldl_insertNew_zero_aux (fs : List Frag) (h : ∀ f ∈ fs, f.index = 0) :
    fs.foldl (fun ks f => insertNew ks f.index) [0] = [0] := by
  induction fs with
  | nil => rfl
  | cons f fs ih =>
    rw [List.foldl_cons, h f (by simp), insertNew, if_pos (by simp)]
    exact ih (fun f' h' => h f' (by simp [h']))

theorem foldl_insertNew_zero (fs : List Frag) (h : ∀ f ∈ fs, f.index = 0)
    (hne : fs ≠ []) :
    fs.foldl (fun ks f => insertNew ks f.index) [] = [0] := by
  rcases fs with _ | ⟨f, fs⟩
  · exact absurd rfl hne
  · rw [List.foldl_cons, h f (by simp), insertNew, if_neg (by simp)]
    exact foldl_insertNew_zero_aux fs (fun f' h' => h f' (by simp [h']))

theorem singleton_state (st : ToolState) (k : Nat)
    (h : st.map Prod.fst = [k]) : ∃ b, st = [(k, b)] := by
  rcases st with _ | ⟨⟨k', b⟩, rest⟩
  · exact absurd h (by simp)
  · rcases rest with _ | ⟨q, rest⟩
    · simp at h
      exact ⟨b, by rw [h]⟩
    · simp at h

/-- The whole-pass payload of a stream whose fragments all target index 0
and carry exactly one non-empty name. -/
theorem single_index_payloads (frags : List Frag) (nm : String)
    (hidx : ∀ f ∈ frags, f.index = 0)
    (hname : frags.filterMap truthyName = [nm]) :
    completePayloads (stream_response (frags.map fragChunk)) =
      [(nm, parse_tool_call_arguments (argsConcat frags))] := by
  have hne : frags ≠ [] := by
    intro h
    rw [h] at hname
    exact List.noConfusion hname
  have hall : allFrags (frags.map fragChunk) = frags := allFrags_map_fragChunk frags
  have hkeys : (decodeToolState (frags.map fragChunk)).map Prod.fst = [0] := by
    rw [decode_keys_eq]
    unfold firstAppearanceList
    rw [hall]
    exact foldl_insertNew_zero frags hidx hne
  obtain ⟨b, hst⟩ := singleton_state _ _ hkeys
  have hfilter : frags.filter (fun f => f.index = 0) = frags :=
    List.filter_eq_self.mpr (fun f hf => by simp [hidx f hf])
  have hlook : lookupAcc (decodeToolState (frags.map fragChunk)) 0 =
      runIdxAcc none frags := by
    show lookupAcc (runChunks initDecState _).1.tool_calls 0 = _
    rw [runChunks_toolcalls, runFrags_lookup, hall, hfilter]
    rfl
  have hb : some b = runIdxAcc none frags := by
    rw [← hlook, hst]
    simp [lookupAcc_cons]
  have hmapfm : (frags.map truthyName).filterMap id = [nm] := by
    rw [List.filterMap_map]
    exact hname
  have hbn : b.name = nm := by
    have hcn := curName_runIdxAcc frags none
    rw [← hb] at hcn
    exact hcn.trans (lastD_single _ nm _ hmapfm)
  have hba : b.arguments = argsConcat frags := by
    have hca := curArgs_runIdxAcc frags none
    rw [← hb] at hca
    exact hca.trans (String.empty_append _)
  rw [stream_response_payloads, hst]
  simp [hbn, hba]

/-- C7 (amended): for splits in which the call's *name* arrives intact in
exactly one fragment (the claim's general name-splitting fails — names
are overwritten, not concatenated; see the counterexample) and the
argument text is split across arbitrarily many fragments of the same
index, the finalized `(name, parsed-arguments)` payload equals the
payload of the same call delivered in a single fragment. -/
theorem tool_call_split_args_invariance (frags : List Frag) (nm args : String)
    (i : Option String)
    (hidx : ∀ f ∈ frags, f.index = 0)
    (hname : frags.filterMap truthyName = [nm])
    (hargs : argsConcat frags = args) :
    completePayloads (stream_response (frags.map fragChunk)) =
      completePayloads (stream_response [fragChunk (mkFrag 0 i (some nm) (some args))]) := by
  have hnm : nm ≠ "" := by
    have hmem : nm ∈ frags.filterMap truthyName := by
      rw [hname]
      simp
    obtain ⟨f, _, hf⟩ := List.mem_filterMap.mp hmem
    exact truthyName_ne_empty f nm hf
  have h2 : completePayloads
      (stream_response ([mkFrag 0 i (some nm) (some args)].map fragChunk)) =
      [(nm, parse_tool_call_arguments (argsConcat [mkFrag 0 i (some nm) (some args)]))] := by
    apply single_index_payloads
    · intro f hf
      simp at hf
      rw [hf]
      rfl
    · simp [truthyName, mkFrag, hnm]
  have hac : argsConcat [mkFrag 0 i (some nm) (some args)] = args := by
    simp [argsConcat, argPiece, mkFrag, String.append_empty]
  rw [single_index_payloads frags nm hidx hname, hargs,
      show [fragChunk (mkFrag 0 i (some nm) (some args))] =
        [mkFrag 0 i (some nm) (some args)].map fragChunk from rfl,
      h2, hac]

/-- Witness for the amended C7: the call `read({"p":1})` split into a
name-bearing fragment and two argument fragments yields the same payload
as the single-fragment delivery. -/
theorem tool_call_split_args_invariance_witness :
    (∀ f ∈ [mkFrag 0 (some "c") (some "read") (some "\x7b\x22p\x22:"),
            mkFrag 0 none none (some "1\x7d")], f.index = 0) ∧
    ([mkFrag 0 (some "c") (some "read") (some "\x7b\x22p\x22:"),
      mkFrag 0 none none (some "1\x7d")].filterMap truthyName = ["read"]) ∧
    completePayloads (stream_response
      ([mkFrag 0 (some "c") (some "read") (some "\x7b\x22p\x22:"),
        mkFrag 0 none none (some "1\x7d")].map fragChunk)) =
      completePayloads (stream_response
        [fragChunk (mkFrag 0 (some "c") (some "read") (some "\x7b\x22p\x22:1\x7d"))]) :=
  ⟨by decide, by decide,
   tool_call_split_args_invariance _ "read" "\x7b\x22p\x22:1\x7d" (some "c")
     (by decide) (by decide) rfl⟩

/-! ## C9 — one `ToolCallStarted` per index, at the first non-empty name -/

/-- `oneHot n i`: `n` zeros with a single `1` at position `i` (all zeros
when `i ≥ n`). -/
def oneHot : Nat → Nat → List Nat
  | 0, _ => []
  | n + 1, 0 => 1 :: List.replicate n 0
  | n + 1, i + 1 => 0 :: oneHot n i

theorem stepIdxEvents_startCount (cur : Option ToolAcc) (f : Frag) :
    countStarts (stepIdxEvents cur f) =
      if curName cur = "" ∧ (truthyName f).isSome then 1 else 0 := by
  rcases f with ⟨idx, fid, fno⟩
  rcases fno with _ | ⟨nmo, argo⟩ <;>
    (try rcases nmo with _ | nm) <;>
      (try rcases argo with _ | args) <;>
        (try by_cases hnm : nm = "") <;>
          (try by_cases harg : args = "") <;>
            cases cur <;>
              simp [stepIdxEvents, countStarts, isStartEv, truthyName, curName,
                    curOf, freshAcc, mkStartEvent, mkArgsDeltaEvent, *] <;>
                (try split_ifs) <;>
                  simp_all [countStarts, isStartEv, mkStartEvent, mkArgsDeltaEvent,
                            List.countP_cons, List.countP_nil]

theorem stepIdx_curName (cur : Option ToolAcc) (f : Frag) :
    curName (some (stepIdx cur f)) = (truthyName f).getD (curName cur) := by
  rw [curName, stepIdx_name]

theorem runIdxSteps_no_name (fs : List Frag) (cur : Option ToolAcc)
    (h : curName cur ≠ "") :
    (runIdxSteps cur fs).map countStarts = List.replicate fs.length 0 := by
  induction fs generalizing cur with
  | nil => rfl
  | cons f fs ih =>
    rw [runIdxSteps, List.map_cons, stepIdxEvents_startCount,
        if_neg (fun hc => h hc.1), List.length_cons, List.replicate_succ]
    congr 1
    apply ih
    rw [stepIdx_curName]
    cases ht : truthyName f
    · simpa using h
    · simpa using truthyName_ne_empty f _ ht

theorem runIdxSteps_startCounts (fs : List Frag) (cur : Option ToolAcc)
    (h : curName cur = "") :
    (runIdxSteps cur fs).map countStarts =
      oneHot fs.length (fs.findIdx (fun f => (truthyName f).isSome)) := by
  induction fs generalizing cur with
  | nil => rfl
  | cons f fs ih =>
    rw [runIdxSteps, List.map_cons, stepIdxEvents_startCount, List.findIdx_cons]
    cases ht : truthyName f with
    | none =>
      rw [if_neg (by simp [ht])]
      simp only [ht, Option.isSome_none, cond_false, List.length_cons, oneHot]
      congr 1
      apply ih
      rw [stepIdx_curName, ht]
      simpa using h
    | some nmv =>
      rw [if_pos ⟨h, by simp [ht]⟩]
      simp only [ht, Option.isSome_some, cond_true, List.length_cons, oneHot]
      congr 1
      apply runIdxSteps_no_name
      rw [stepIdx_curName, ht]
      simpa using truthyName_ne_empty f nmv ht

/-- C9: for every chunk stream and every tool-call index that carries at
least one non-empty name fragment: (1) the assembler's final slot for the
index is exactly the per-index fold of its fragments; (2) across the
steps at which the decoder processes that index's fragments, exactly one
`ToolCallStarted` is emitted, precisely at the first fragment bearing a
non-empty name (`oneHot`), and such a fragment exists; (3) the stored
name is the last non-empty name observed (later name fragments overwrite
only when non-empty); (4) the argument text is the concatenation of the
index's argument deltas in arrival order; and (5) those per-index events
occur, in order, within the decoder's actual output stream. -/
theorem tool_call_start_once_per_index (chunks : List Chunk) (idx : Nat)
    (h : (fragsFor chunks idx).filterMap truthyName ≠ []) :
    lookupAcc (decodeToolState chunks) idx = runIdxAcc none (fragsFor chunks idx) ∧
    (runIdxSteps none (fragsFor chunks idx)).map countStarts =
      oneHot (fragsFor chunks idx).length
        ((fragsFor chunks idx).findIdx (fun f => (truthyName f).isSome)) ∧
    (fragsFor chunks idx).findIdx (fun f => (truthyName f).isSome)
        < (fragsFor chunks idx).length ∧
    curName (runIdxAcc none (fragsFor chunks idx)) =
      lastD ((fragsFor chunks idx).map truthyName) "" ∧
    curArgs (runIdxAcc none (fragsFor chunks idx)) = argsConcat (fragsFor chunks idx) ∧
    (runIdxSteps none (fragsFor chunks idx)).flatten.Sublist (stream_response chunks) := by
  refine ⟨?_, ?_, ?_, ?_, ?_, ?_⟩
  · show lookupAcc (runChunks initDecState chunks).1.tool_calls idx = _
    rw [runChunks_toolcalls, runFrags_lookup]
    rfl
  · exact runIdxSteps_startCounts _ none rfl
  · refine List.findIdx_lt_length_of_exists ?_
    rcases hx : (fragsFor chunks idx).filterMap truthyName with _ | ⟨a, rest⟩
    · exact absurd hx h
    · have : a ∈ (fragsFor chunks idx).filterMap truthyName := by
        rw [hx]
        simp
      obtain ⟨f, hf, hfa⟩ := List.mem_filterMap.mp this
      exact ⟨f, hf, by simp [hfa]⟩
  · exact curName_runIdxAcc _ none
  · exact (curArgs_runIdxAcc _ none).trans (String.empty_append _)
  · have h1 : (runIdxSteps none (fragsFor chunks idx)).flatten =
        (idxStepsIn ([] : ToolState) idx (allFrags chunks)).flatten := by
      rw [idxStepsIn_eq_runIdxSteps]
      rfl
    rw [h1]
    have s1 : (idxStepsIn ([] : ToolState) idx (allFrags chunks)).flatten.Sublist
        (fragStepsEvents ([] : ToolState) (allFrags chunks)) :=
      join_idxSteps_sublist _ _ _
    have s2 : (fragStepsEvents ([] : ToolState) (allFrags chunks)).Sublist
        (runChunks initDecState chunks).2 :=
      runChunks_fragSteps_sublist chunks initDecState
    have s3 : ((runChunks initDecState chunks).2).Sublist (stream_response chunks) := by
      show ((runChunks initDecState chunks).2).Sublist
        ((runChunks initDecState chunks).2 ++ _ ++ [_])
      rw [List.append_assoc]
      exact List.sublist_append_left _ _
    exact (s1.trans s2).trans s3

/-- Witness for C9 on a stream whose index-0 call is split into a
name-bearing fragment followed by an argument fragment (one `oneHot`
start at position 0). -/
theorem tool_call_start_once_witness :
    ((fragsFor [fragChunk (mkFrag 0 (some "c") (some "read") none),
                fragChunk (mkFrag 0 none none (some "xyz"))] 0).filterMap truthyName ≠ []) ∧
    (runIdxSteps none (fragsFor
        [fragChunk (mkFrag 0 (some "c") (some "read") none),
         fragChunk (mkFrag 0 none none (some "xyz"))] 0)).map countStarts =
      oneHot 2 0 :=
  ⟨by decide,
   (tool_call_start_once_per_index
      [fragChunk (mkFrag 0 (some "c") (some "read") none),
       fragChunk (mkFrag 0 none none (some "xyz"))] 0 (by decide)).2.1⟩

/-! ## C6 — text-only round trip -/

theorem allFrags_nil_of (chunks : List Chunk) (h : ∀ c ∈ chunks, chunkFrags c = []) :
    allFrags chunks = [] := by
  induction chunks with
  | nil => rfl
  | cons c cs ih =>
    rw [allFrags, h c (by simp), ih (fun c' h' => h c' (by simp [h'])), List.append_nil]

theorem agentDeltaEvents_no_tc (evs : List StreamEvent) :
    ∀ e ∈ agentDeltaEvents evs, ∀ c, e ≠ AgentEvent.text_complete c := by
  intro e he c
  obtain ⟨c', rfl⟩ := agentDeltaEvents_shape evs e he
  exact fun hx => AgentEvent.noConfusion hx

theorem agentTextConcat_deltaOnly (evs : List StreamEvent) :
    agentTextConcat (agentDeltaEvents evs) = clientTextConcat evs :=
  agentTextConcat_deltaEvents evs

/-- C6: running a turn with zero registered tools against a backend whose
single successful attempt streams only text grows the Context by exactly
two messages — the user message, then one assistant message — and the
closing `agent_end` (TurnFinished) carries exactly the concatenation of
the emitted `text_delta` payloads, which is also the assistant message's
content. -/
theorem text_only_turn_round_trip (tok : String → Nat) (ctx : ContextManager)
    (message : String) (chunks : List Chunk)
    (h : ∀ c ∈ chunks, chunkFrags c = []) :
    (Agent.run tok [] (fun _ => AttemptOutcome.ok chunks) ctx message).2.messages =
      ctx.messages ++
        [{ role := "user", content := message, token_count := some (tok message) },
         { role := "assistant",
           content := agentTextConcat
             (Agent.run tok [] (fun _ => AttemptOutcome.ok chunks) ctx message).1,
           token_count := some (tok (agentTextConcat
             (Agent.run tok [] (fun _ => AttemptOutcome.ok chunks) ctx message).1)) }] ∧
    (Agent.run tok [] (fun _ => AttemptOutcome.ok chunks) ctx message).1.getLast? =
      some (AgentEvent.agent_end (agentTextConcat
        (Agent.run tok [] (fun _ => AttemptOutcome.ok chunks) ctx message).1)) := by
  have hev : (chat_completion (fun _ => AttemptOutcome.ok chunks)).events =
      stream_response chunks := rfl
  have hAF : allFrags chunks = [] := allFrags_nil_of chunks h
  have htc : (runChunks initDecState chunks).1.tool_calls = [] := by
    rw [runChunks_toolcalls, hAF]
    rfl
  have hsr : stream_response chunks =
      (runChunks initDecState chunks).2 ++
        [{ type := StreamEventType.MESSAGE_COMPLETE,
           finish_reason := (runChunks initDecState chunks).1.finish_reason,
           usage := (runChunks initDecState chunks).1.usage }] := by
    show (runChunks initDecState chunks).2 ++
      finalizeEvents (runChunks initDecState chunks).1.tool_calls ++ [_] = _
    rw [htc]
    simp [finalizeEvents]
  set E := (runChunks initDecState chunks).2 with hE
  set T := clientTextConcat E with hT
  have hbenign : ∀ e ∈ E, e.type ≠ StreamEventType.ERROR ∧
      e.type ≠ StreamEventType.TOOL_CALL_COMPLETE := by
    intro e he
    rcases runChunks_types chunks initDecState e he with h1 | h1 | h1 <;>
      rw [h1] <;> exact ⟨fun hx => StreamEventType.noConfusion hx,
                         fun hx => StreamEventType.noConfusion hx⟩
  have hfold : foldClient (stream_response chunks) = (T, [], agentDeltaEvents E) := by
    rw [hsr, foldClient_append, foldClient_benign E hbenign]
    show (T ++ "", [] ++ [], agentDeltaEvents E ++ []) = _
    rw [String.append_empty, List.append_nil, List.append_nil]
  have hloop : agentic_loop tok [] (stream_response chunks)
        (ctx.add_user_message tok message) =
      (agentDeltaEvents E ++ (if T ≠ "" then [AgentEvent.text_complete T] else []),
       ctx.add_user_message tok message) := by
    rw [agentic_loop, hfold]
    show (agentDeltaEvents E ++ _ ++ [], _) = _
    rw [List.append_nil]
    rfl
  have hfinal : finalResponse (agentDeltaEvents E ++
      (if T ≠ "" then [AgentEvent.text_complete T] else [])) = T := by
    rw [finalResponse, List.foldl_append, finalResponse_skip _ _ (agentDeltaEvents_no_tc E)]
    by_cases hTe : T = ""
    · rw [if_neg (by simp [hTe]), hTe]
      rfl
    · rw [if_pos hTe]
      rfl
  have hrun : Agent.run tok [] (fun _ => AttemptOutcome.ok chunks) ctx message =
      (AgentEvent.agent_start message ::
         (agentDeltaEvents E ++ (if T ≠ "" then [AgentEvent.text_complete T] else [])) ++
         [AgentEvent.agent_end T],
       (ctx.add_user_message tok message).add_assistant_message tok T) := by
    rw [Agent.run, hev, hloop]
    dsimp only
    rw [hfinal]
  have hAT : agentTextConcat (Agent.run tok [] (fun _ => AttemptOutcome.ok chunks)
      ctx message).1 = T := by
    rw [hrun]
    have hskip : agentTextConcat (AgentEvent.agent_start message ::
        (agentDeltaEvents E ++ (if T ≠ "" then [AgentEvent.text_complete T] else [])) ++
        [AgentEvent.agent_end T]) =
        agentTextConcat ((agentDeltaEvents E ++
          (if T ≠ "" then [AgentEvent.text_complete T] else [])) ++
          [AgentEvent.agent_end T]) := rfl
    rw [hskip, agentTextConcat_append, agentTextConcat_append,
        agentTextConcat_deltaOnly, ← hT]
    have h1 : agentTextConcat (if T ≠ "" then [AgentEvent.text_complete T] else []) = "" := by
      split <;> rfl
    have h2 : agentTextConcat [AgentEvent.agent_end T] = "" := rfl
    rw [h1, h2, String.append_empty, String.append_empty]
  refine ⟨?_, ?_⟩
  · rw [hAT, hrun]
    show ((ctx.add_user_message tok message).add_assistant_message tok T).messages = _
    rw [ContextManager.add_assistant_message, ContextManager.add_user_message]
    simp
  · rw [hAT, hrun]
    show (AgentEvent.agent_start message ::
      ((agentDeltaEvents E ++ _) ++ [AgentEvent.agent_end T])).getLast? = _
    rw [← List.cons_append, List.getLast?_concat]

/-- Witness for C6: two text chunks `"he"`, `"llo"`. -/
theorem text_only_turn_round_trip_witness :
    (∀ c ∈ [textChunk "he", textChunk "llo"], chunkFrags c = []) ∧
    (Agent.run String.length [] (fun _ => AttemptOutcome.ok [textChunk "he", textChunk "llo"])
        {} "q").2.messages =
      [{ role := "user", content := "q", token_count := some 1 },
       { role := "assistant", content := "hello", token_count := some 5 }] :=
  ⟨by intro c hc; fin_cases hc <;> rfl,
   by
     have hmain := (text_only_turn_round_trip String.length {} "q"
       [textChunk "he", textChunk "llo"] (by intro c hc; fin_cases hc <;> rfl)).1
     rw [hmain]
     rfl⟩

/-! ## C2 — behaviour after a stream error -/

/-- C2 counterexample: a fatal `APIError` after one text chunk.  The
claim says the turn emits one `TurnError` and then nothing further, with
buffered text dropped.  In fact, after the single `agent_error` the loop
finalizes the buffered text (`text_complete "hi"`) and `Agent.run` still
appends an assistant message and emits `agent_end` (TurnFinished). -/
theorem turn_error_then_turn_finished_cex :
    (Agent.run String.length []
      (fun _ => AttemptOutcome.fail [textChunk "hi"] (ApiException.api "boom")) {} "go").1 =
    [AgentEvent.agent_start "go", AgentEvent.text_delta "hi",
     AgentEvent.agent_error "API error boom", AgentEvent.text_complete "hi",
     AgentEvent.agent_end "hi"] := rfl

/-- C2 (amended): for every turn whose stream ends in a fatal transport
error after some prefix of text, exactly one `agent_error` (TurnError) is
emitted and no tool is invoked; however, the buffered text is *not*
dropped — it is finalized as `text_complete` — and an `agent_end`
(TurnFinished) carrying it closes the turn. -/
theorem turn_error_single_no_tools_still_finishes (pre : List Chunk) (m : String)
    (tok : String → Nat) (tools : List Tool) (ctx : ContextManager) (message : String)
    (hT : clientTextConcat (prefixEvents pre) ≠ "") :
    (Agent.run tok tools (fun _ => AttemptOutcome.fail pre (ApiException.api m))
        ctx message).1.countP isAgentErrorEv = 1 ∧
    (Agent.run tok tools (fun _ => AttemptOutcome.fail pre (ApiException.api m))
        ctx message).1.countP isToolStartEv = 0 ∧
    AgentEvent.text_complete (clientTextConcat (prefixEvents pre)) ∈
      (Agent.run tok tools (fun _ => AttemptOutcome.fail pre (ApiException.api m))
        ctx message).1 ∧
    (Agent.run tok tools (fun _ => AttemptOutcome.fail pre (ApiException.api m))
        ctx message).1.getLast? =
      some (AgentEvent.agent_end (clientTextConcat (prefixEvents pre))) := by
  set E := prefixEvents pre with hE
  set T := clientTextConcat E with hTdef
  set errStr := "API error " ++ m with herrStr
  have hne : errStr ≠ "" := by
    intro hx
    have hd := congrArg String.data hx
    rw [herrStr, String.data_append] at hd
    exact List.noConfusion hd
  have hev : (chat_completion (fun _ => AttemptOutcome.fail pre (ApiException.api m))).events =
      E ++ [{ type := StreamEventType.ERROR, error := some errStr }] := rfl
  have hbenign : ∀ e ∈ E, e.type ≠ StreamEventType.ERROR ∧
      e.type ≠ StreamEventType.TOOL_CALL_COMPLETE := by
    intro e he
    rcases runChunks_types pre initDecState e he with h1 | h1 | h1 <;>
      rw [h1] <;> exact ⟨fun hx => StreamEventType.noConfusion hx,
                         fun hx => StreamEventType.noConfusion hx⟩
  have herrfold : foldClient [({ type := StreamEventType.ERROR, error := some errStr } :
      StreamEvent)] = ("", [], [AgentEvent.agent_error errStr]) := by
    show ("", [], [AgentEvent.agent_error (errorOrDefault (some errStr))]) = _
    rw [errorOrDefault, if_neg hne]
  have hfold : foldClient (E ++ [{ type := StreamEventType.ERROR, error := some errStr }]) =
      (T, [], agentDeltaEvents E ++ [AgentEvent.agent_error errStr]) := by
    rw [foldClient_append, foldClient_benign E hbenign, herrfold]
    show (T ++ "", [] ++ [], _ ++ _) = _
    rw [String.append_empty, List.append_nil]
  have hloop : agentic_loop tok tools
      (E ++ [{ type := StreamEventType.ERROR, error := some errStr }])
      (ctx.add_user_message tok message) =
      ((agentDeltaEvents E ++ [AgentEvent.agent_error errStr]) ++
         [AgentEvent.text_complete T],
       ctx.add_user_message tok message) := by
    rw [agentic_loop, hfold]
    show ((agentDeltaEvents E ++ [AgentEvent.agent_error errStr]) ++
      (if T ≠ "" then [AgentEvent.text_complete T] else []) ++ [], _) = _
    rw [if_pos hT, List.append_nil]
    rfl
  have hfinal : finalResponse ((agentDeltaEvents E ++ [AgentEvent.agent_error errStr]) ++
      [AgentEvent.text_complete T]) = T := by
    rw [finalResponse, List.foldl_append, List.foldl_append,
        finalResponse_skip _ _ (agentDeltaEvents_no_tc E)]
    rfl
  have hrun : Agent.run tok tools (fun _ => AttemptOutcome.fail pre (ApiException.api m))
      ctx message =
      (AgentEvent.agent_start message ::
         ((agentDeltaEvents E ++ [AgentEvent.agent_error errStr]) ++
            [AgentEvent.text_complete T]) ++ [AgentEvent.agent_end T],
       ((ctx.add_user_message tok message).add_assistant_message tok T)) := by
    rw [Agent.run, hev, hloop]
    dsimp only
    rw [hfinal]
  have hzerr : (agentDeltaEvents E).countP isAgentErrorEv = 0 :=
    countP_eq_zero_of_shape _ _ (fun e he => by
      obtain ⟨c, rfl⟩ := agentDeltaEvents_shape E e he
      rfl)
  have hzts : (agentDeltaEvents E).countP isToolStartEv = 0 :=
    countP_eq_zero_of_shape _ _ (fun e he => by
      obtain ⟨c, rfl⟩ := agentDeltaEvents_shape E e he
      rfl)
  refine ⟨?_, ?_, ?_, ?_⟩
  · rw [hrun]
    simp [List.countP_cons, List.countP_append, hzerr, isAgentErrorEv]
  · rw [hrun]
    simp [List.countP_cons, List.countP_append, hzts, isToolStartEv]
  · rw [hrun]
    simp
  · rw [hrun]
    rw [← List.cons_append, List.getLast?_concat]

/-- Witness for the amended C2 at a one-chunk prefix `"hi"` and error
message `"boom"`. -/
theorem turn_error_single_witness :
    clientTextConcat (prefixEvents [textChunk "hi"]) ≠ "" ∧
    (Agent.run String.length []
      (fun _ => AttemptOutcome.fail [textChunk "hi"] (ApiException.api "boom"))
        {} "go").1.countP isAgentErrorEv = 1 :=
  ⟨by decide,
   (turn_error_single_no_tools_still_finishes [textChunk "hi"] "boom"
      String.length [] {} "go" (by decide)).1⟩

/-! ## C5 — tool failures are captured, never escalate -/

/-- A `TOOL_CALL_COMPLETE` stream event carrying a finished call. -/
def completeEventOf (tc : ToolCall) : StreamEvent :=
  { type := StreamEventType.TOOL_CALL_COMPLETE, tool_call := some tc }

def messageCompleteEvent : StreamEvent :=
  { type := StreamEventType.MESSAGE_COMPLETE }

/-- C5: for every finished tool call whose name is unregistered or whose
execution raises, `ToolRegistry.invoke` returns (never raises) a
`ToolResult` with `success = false` and an error message; the loop emits
`tool_call_start` then `tool_call_complete` carrying that failed result
and runs to completion; and the Context gains exactly one tool-role
message whose content is the fixed composite
`"Error: <message>\nOutput: <output>"`. -/
theorem tool_failure_captured (tok : String → Nat) (tools : List Tool)
    (tc : ToolCall) (ctx : ContextManager)
    (h : tools.find? (fun t => t.name = tc.name) = none ∨
         ∃ t m, tools.find? (fun t => t.name = tc.name) = some t ∧
                t.validate tc.arguments = [] ∧
                t.execute tc.arguments = Except.error m) :
    (ToolRegistry.invoke tools tc.name tc.arguments).success = false ∧
    (∃ e, (ToolRegistry.invoke tools tc.name tc.arguments).error = some e ∧
      (ToolRegistry.invoke tools tc.name tc.arguments).to_model_output =
        "Error: " ++ e ++ "\nOutput: " ++
          (ToolRegistry.invoke tools tc.name tc.arguments).output) ∧
    (agentic_loop tok tools [completeEventOf tc, messageCompleteEvent] ctx).1 =
      [AgentEvent.tool_call_start tc.call_id tc.name tc.arguments,
       AgentEvent.tool_call_complete tc.call_id tc.name
         (ToolRegistry.invoke tools tc.name tc.arguments)] ∧
    (agentic_loop tok tools [completeEventOf tc, messageCompleteEvent] ctx).2.messages =
      ctx.messages ++
        [{ role := "tool",
           content := (ToolRegistry.invoke tools tc.name tc.arguments).to_model_output,
           token_count := some (tok
             ((ToolRegistry.invoke tools tc.name tc.arguments).to_model_output)) }] := by
  have hr : (ToolRegistry.invoke tools tc.name tc.arguments).success = false ∧
      ∃ e, (ToolRegistry.invoke tools tc.name tc.arguments).error = some e := by
    rcases h with hn | ⟨t, m, hf, hv, hx⟩
    · rw [ToolRegistry.invoke, hn]
      exact ⟨rfl, _, rfl⟩
    · rw [ToolRegistry.invoke, hf]
      dsimp only
      rw [hv, hx]
      exact ⟨rfl, _, rfl⟩
  obtain ⟨hsucc, e, herr⟩ := hr
  refine ⟨hsucc, ⟨e, herr, ?_⟩, ?_, ?_⟩
  · rw [ToolResult.to_model_output, if_neg (by rw [hsucc]; exact Bool.noConfusion), herr]
  · rfl
  · rfl

/-- The tool used by the C5 witness: its execution always raises. -/
def boomTool : Tool :=
  { name := "boom", validate := fun _ => [], execute := fun _ => Except.error "kaput" }

/-- Witness for C5: invoking `boomTool` (which raises `"kaput"`) through
the loop yields a failed result and the composite tool message. -/
theorem tool_failure_captured_witness :
    ([boomTool].find? (fun t => t.name = "boom") = some boomTool ∧
     boomTool.validate (Json.obj []) = [] ∧
     boomTool.execute (Json.obj []) = Except.error "kaput") ∧
    (ToolRegistry.invoke [boomTool] "boom" (Json.obj [])).success = false :=
  ⟨⟨rfl, rfl, rfl⟩,
   (tool_failure_captured String.length [boomTool]
      { call_id := some "call_1", arguments := Json.obj [], name := "boom" } {}
      (Or.inr ⟨boomTool, "kaput", rfl, rfl, rfl⟩)).1⟩
